import Mathlib

/-!
# Aggregation core of `xk6-output-compacted-json` (`log.go`)

A shallow embedding of the package-level state of `log.go` and of the functions
`Start`, `AggregateSamples`, `Percentile` and `Stop`, followed by the properties
proved about them.

Modelling conventions.

* `float64` sample values are exact rationals (`ℚ`); rounding of floating-point
  sums and products is not modelled, except in `PercentileFloat`, where the product
  that decides the rank and the average of two elements are rounded to `float64`
  as the code computes them.  The literal `0.95` is `19 / 20`.  The only
  operation of the code that leaves the finite numbers on finite input is the
  division computing `RequestRatePerSecond`, so that field has type `Float64`,
  which adds `+Inf`, `-Inf` and `NaN` to the rationals.
* `int64` values are integers reduced by `wrapInt64` after every addition and
  subtraction.
* A Go map keyed by `int64` is an association list; the first entry of a key is
  its value and a missing key reads as the zero value.  `range` visits every key
  once, in an order Go leaves unspecified: `Stop` takes that order as its first
  argument, a permutation of `mapKeys requestRate`.
* A run-time panic (index out of range) is an explicit outcome that carries the
  package-level state at the moment of the panic.
* File creation is outside the model.  `Stop` ends where the marshalled result is
  handed to `file.WriteString`; `StopAndWrite` adds the write and the deferred
  `file.Close()`, with the variable `file` reduced to whether it is an open file.
-/

namespace Log

/-! ## Go maps keyed by `int64` -/

/-- A Go map with `int64` keys: association list, first entry of a key wins. -/
abbrev GoMap (V : Type) := List (Int × V)

/-- Read `m[key]`: the stored value, or the zero value of the element type. -/
def mapGet {V : Type} (zero : V) : GoMap V → Int → V
  | [], _ => zero
  | (k, v) :: rest, key => if k = key then v else mapGet zero rest key

/-- Assign `m[key] = v`. -/
def mapSet {V : Type} : GoMap V → Int → V → GoMap V
  | [], key, v => [(key, v)]
  | (k, w) :: rest, key, v =>
    if k = key then (k, v) :: rest else (k, w) :: mapSet rest key v

/-- Whether `key` is present in the map. -/
def mapHas {V : Type} (m : GoMap V) (key : Int) : Bool :=
  decide (key ∈ m.map Prod.fst)

/-- The keys visited by `for key := range m`, each once. -/
def mapKeys {V : Type} (m : GoMap V) : List Int :=
  (m.map Prod.fst).dedup

/-! ## Numbers -/

/-- A `float64` result that may be non-finite. -/
inductive Float64 where
  | finite (q : ℚ)
  | posInf
  | negInf
  | nan
  deriving DecidableEq

/-- Floating-point division `a / b` of finite operands: a zero divisor gives
`+Inf`, `-Inf` or `NaN` and never fails. -/
def float64Div (a b : ℚ) : Float64 :=
  if b ≠ 0 then Float64.finite (a / b)
  else if 0 < a then Float64.posInf
  else if a < 0 then Float64.negInf
  else Float64.nan

/-- Two's-complement reduction of an integer to the `int64` range. -/
def wrapInt64 (z : Int) : Int :=
  (z + 2 ^ 63) % 2 ^ 64 - 2 ^ 63

/-- Rounding toward zero, as done by `math.Trunc` and by float-to-int conversion. -/
def mathTrunc (q : ℚ) : Int :=
  if 0 ≤ q then ⌊q⌋ else ⌈q⌉

/-- The conversion `int64(f)`: truncation toward zero; a value outside the
`int64` range converts to the smallest `int64` (the amd64 result; Go leaves this
case implementation-dependent). -/
def int64OfFloat (q : ℚ) : Int :=
  if -2 ^ 63 ≤ mathTrunc q ∧ mathTrunc q < 2 ^ 63 then mathTrunc q else -2 ^ 63

/-- The value `math.Mod(x, 1)`: `x` minus its truncation toward zero. -/
def mathMod1 (x : ℚ) : ℚ :=
  x - mathTrunc x

/-- The value `int(math.Ceil(x))`. -/
def mathCeil (x : ℚ) : Int :=
  ⌈x⌉

/-- Rounding of a rational to the nearest integer, ties to the even one. -/
def roundHalfEven (q : ℚ) : Int :=
  if q - (⌊q⌋ : ℚ) < 1 / 2 then ⌊q⌋
  else if 1 / 2 < q - (⌊q⌋ : ℚ) then ⌊q⌋ + 1
  else if ⌊q⌋ % 2 = 0 then ⌊q⌋ else ⌊q⌋ + 1

/-- Binary logarithm of a natural number, rounded down, by halving at most `fuel`
times. -/
def log2Fuel : Nat → Nat → Nat
  | 0, _ => 0
  | fuel + 1, n => if 2 ≤ n then log2Fuel fuel (n / 2) + 1 else 0

/-- The integer `k` with `2 ^ k ≤ q < 2 ^ (k + 1)`, for `q > 0`. -/
def floorLog2 (q : ℚ) : Int :=
  if (2 : ℚ) ^ ((log2Fuel q.num.natAbs q.num.natAbs : Int) - (log2Fuel q.den q.den : Int)) ≤ q
  then (log2Fuel q.num.natAbs q.num.natAbs : Int) - (log2Fuel q.den q.den : Int)
  else (log2Fuel q.num.natAbs q.num.natAbs : Int) - (log2Fuel q.den q.den : Int) - 1

/-- The exponent of the unit in the last place of the `float64` nearest to `q ≠ 0`:
53 significant bits, and `-1074` in the subnormal range. -/
def ulpExponent (q : ℚ) : Int :=
  max (floorLog2 |q| - 52) (-1074)

/-- Rounding of a real result to `float64`: the nearest value, ties to even.
Overflow to an infinity is not modelled. -/
def roundFloat64 (q : ℚ) : ℚ :=
  if q = 0 then 0
  else if q < 0 then
    -((roundHalfEven (|q| / (2 : ℚ) ^ ulpExponent q) : ℚ) * (2 : ℚ) ^ ulpExponent q)
  else (roundHalfEven (|q| / (2 : ℚ) ^ ulpExponent q) : ℚ) * (2 : ℚ) ^ ulpExponent q

/-- The `float64` product `a * b`: the exact product, rounded. -/
def float64Mul (a b : ℚ) : ℚ :=
  roundFloat64 (a * b)

/-- The `float64` expression `(a + b) / 2.0`: the sum is rounded, then the
quotient. -/
def float64Avg (a b : ℚ) : ℚ :=
  roundFloat64 (roundFloat64 (a + b) / 2)

/-! ## Data model -/

/-- The part of `metrics.Sample` read by the code: `GetTime().Unix()`,
`Metric.Name` and `Value`. -/
structure Sample where
  Time : Int
  Name : String
  Value : ℚ
  deriving DecidableEq

/-- The struct `Metric`. -/
structure Metric where
  RequestRate : ℚ
  ErrorRate : ℚ
  RequestDuration : ℚ
  deriving DecidableEq

/-- The struct `Summary`. -/
structure Summary where
  TotalRequest : Int
  TotalSuccess : Int
  TotalError : Int
  RequestRatePerSecond : Float64
  RequestDuration : ℚ
  deriving DecidableEq

/-- The struct `LoadTestResult`. -/
structure LoadTestResult where
  Points : GoMap Metric
  Summary : Summary
  deriving DecidableEq

/-- The package-level variables of `log.go` that the aggregation reads and writes. -/
structure Globals where
  loadTestResult : LoadTestResult
  requestRate : GoMap ℚ
  errorRate : GoMap ℚ
  requestDuration : GoMap (List ℚ)
  flattenRequestDuration : List ℚ
  deriving DecidableEq

/-- Outcome of a call that either returns normally or panics, with the state
reached in either case. -/
inductive Outcome (σ : Type) where
  | done (s : σ)
  | panic (s : σ)
  deriving DecidableEq

/-! ## `Start` -/

/-- The method `Logger.Start`: every package-level variable is re-initialised. -/
def Start (_ : Globals) : Globals :=
  { loadTestResult :=
      { Points := []
        Summary :=
          { TotalRequest := 0
            TotalSuccess := 0
            TotalError := 0
            RequestRatePerSecond := Float64.finite 0
            RequestDuration := 0 } }
    requestRate := []
    errorRate := []
    requestDuration := []
    flattenRequestDuration := [] }

/-! ## `AggregateSamples` -/

/-- One iteration of the loop of `AggregateSamples` for the batch key
`unixTimestamp`. -/
def aggregateSample (unixTimestamp : Int) (g : Globals) (sample : Sample) : Globals :=
  let g1 : Globals :=
    if sample.Name = "http_reqs" then
      { g with
        requestRate :=
          mapSet g.requestRate unixTimestamp
            (mapGet 0 g.requestRate unixTimestamp + sample.Value) }
    else g
  let g2 : Globals :=
    if sample.Name = "http_req_failed" then
      { g1 with
        errorRate :=
          mapSet g1.errorRate unixTimestamp
            (mapGet 0 g1.errorRate unixTimestamp + sample.Value) }
    else g1
  if sample.Name = "http_req_duration" then
    { g2 with
      requestDuration :=
        mapSet g2.requestDuration unixTimestamp
          (mapGet [] g2.requestDuration unixTimestamp ++ [sample.Value])
      flattenRequestDuration := g2.flattenRequestDuration ++ [sample.Value] }
  else g2

/-- The function `AggregateSamples`: `samples[0]` panics on an empty batch,
before anything is written. -/
def AggregateSamples (samples : List Sample) (g : Globals) : Outcome Globals :=
  match samples with
  | [] => Outcome.panic g
  | first :: _ => Outcome.done (samples.foldl (aggregateSample first.Time) g)

/-- The method `Logger.AddMetricSamples`, given the sample list of each container:
`AggregateSamples` is called on each in turn, and a panic ends the call. -/
def AddMetricSamples : List (List Sample) → Globals → Outcome Globals
  | [], g => Outcome.done g
  | all :: rest, g =>
    match AggregateSamples all g with
    | Outcome.done g1 => AddMetricSamples rest g1
    | Outcome.panic g1 => Outcome.panic g1

/-! ## `Percentile` -/

/-- The call `sort.Float64s(xs)`: ascending order. -/
def sortFloat64s (xs : List ℚ) : List ℚ :=
  xs.insertionSort (· ≤ ·)

/-- The index expression `xs[i]` with Go's bounds check: `none` is the panic. -/
def sliceIndex (xs : List ℚ) (i : Int) : Option ℚ :=
  if 0 ≤ i then xs[i.toNat]? else none

/-- The function `Percentile`, with the product `percentile * float64(len(xs))`
and the average taken exactly.  The first component is the caller's slice after the call (sorted
in place), the second the returned value, `none` when an index expression
panics. -/
def Percentile (percentile : ℚ) (xs : List ℚ) : List ℚ × Option ℚ :=
  let xs := sortFloat64s xs
  let kPercentMultiplyByN : ℚ := percentile * (xs.length : ℚ)
  let index : Int := mathCeil kPercentMultiplyByN
  if mathMod1 kPercentMultiplyByN = 0 then
    (xs, (sliceIndex xs index).bind fun a =>
      (sliceIndex xs (index + 1)).map fun b => (a + b) / 2)
  else
    (xs, sliceIndex xs index)

/-- The function `Percentile` in `float64` arithmetic: `kPercentMultiplyByN` is
the `float64` product of `percentile` (the exact value of the `float64` argument)
and the length, so that `math.Mod` and `math.Ceil` see the rounded product, and
the average is the `float64` average. -/
def PercentileFloat (percentile : ℚ) (xs : List ℚ) : List ℚ × Option ℚ :=
  let xs := sortFloat64s xs
  let kPercentMultiplyByN : ℚ := float64Mul percentile (xs.length : ℚ)
  let index : Int := mathCeil kPercentMultiplyByN
  if mathMod1 kPercentMultiplyByN = 0 then
    (xs, (sliceIndex xs index).bind fun a =>
      (sliceIndex xs (index + 1)).map fun b => float64Avg a b)
  else
    (xs, sliceIndex xs index)

/-! ## `Stop` -/

/-- The local variables of `Stop`. -/
structure StopLocals where
  flattenRequestRate : List ℚ
  totalRequest : Int
  totalError : Int
  countSeconds : Int
  deriving DecidableEq

/-- The locals of `Stop` before its loop. -/
def initialLocals : StopLocals :=
  { flattenRequestRate := [], totalRequest := 0, totalError := 0, countSeconds := 0 }

/-- The four statements of the loop body of `Stop` that update its locals. -/
def nextLocals (g : Globals) (key : Int) (l : StopLocals) : StopLocals :=
  { totalRequest := wrapInt64 (l.totalRequest + int64OfFloat (mapGet 0 g.requestRate key))
    totalError := wrapInt64 (l.totalError + int64OfFloat (mapGet 0 g.errorRate key))
    countSeconds := l.countSeconds + 1
    flattenRequestRate := l.flattenRequestRate ++ [mapGet 0 g.requestRate key] }

/-- Effect of sorting the slice stored at `key` in place: an absent key stays
absent. -/
def mapSortInPlace (m : GoMap (List ℚ)) (key : Int) (sorted : List ℚ) : GoMap (List ℚ) :=
  if mapHas m key then mapSet m key sorted else m

/-- One iteration of the loop `for key := range requestRate` of `Stop`: the locals
are updated, `Percentile` sorts the bucket's slice in place, and the point is
stored unless `Percentile` panicked. -/
def stopIteration (key : Int) (g : Globals) (l : StopLocals) :
    Outcome (Globals × StopLocals) :=
  let l1 := nextLocals g key l
  let r := Percentile (19 / 20) (mapGet [] g.requestDuration key)
  let g1 : Globals :=
    { g with requestDuration := mapSortInPlace g.requestDuration key r.1 }
  match r.2 with
  | none => Outcome.panic (g1, l1)
  | some d =>
    Outcome.done
      ({ g1 with
          loadTestResult :=
            { g1.loadTestResult with
              Points :=
                mapSet g1.loadTestResult.Points key
                  { RequestRate := mapGet 0 g.requestRate key
                    ErrorRate := mapGet 0 g.errorRate key
                    RequestDuration := d } } }, l1)

/-- The loop of `Stop` over the given keys; it ends at the first panic. -/
def stopLoop : List Int → Globals → StopLocals → Outcome (Globals × StopLocals)
  | [], g, l => Outcome.done (g, l)
  | key :: keys, g, l =>
    match stopIteration key g l with
    | Outcome.done (g1, l1) => stopLoop keys g1 l1
    | Outcome.panic s => Outcome.panic s

/-- Whether `json.MarshalIndent` rejects the result: `encoding/json` returns an
`UnsupportedValueError` for a `float64` that is `NaN` or infinite. -/
def jsonUnsupported (r : LoadTestResult) : Bool :=
  match r.Summary.RequestRatePerSecond with
  | Float64.finite _ => false
  | _ => true

/-- How a call of `Stop` ends. -/
inductive StopOutcome where
  | panic (g : Globals)
  | marshalError (g : Globals)
  | written (g : Globals)
  deriving DecidableEq

/-- The method `Logger.Stop`; `order` is the order in which `range requestRate`
yields the keys.  `panic`: an index expression of `Percentile` panicked.
`marshalError`: `json.MarshalIndent` failed and `Stop` returned its error without
writing.  `written`: the marshalled result went to `file.WriteString`. -/
def Stop (order : List Int) (g : Globals) : StopOutcome :=
  match stopLoop order g initialLocals with
  | Outcome.panic (g1, _) => StopOutcome.panic g1
  | Outcome.done (g1, l) =>
    let rate := float64Div (l.totalRequest : ℚ) ((l.countSeconds - 1 : Int) : ℚ)
    let r := Percentile (19 / 20) g1.flattenRequestDuration
    let g2 : Globals := { g1 with flattenRequestDuration := r.1 }
    match r.2 with
    | none => StopOutcome.panic g2
    | some d =>
      let g3 : Globals :=
        { g2 with
          loadTestResult :=
            { g2.loadTestResult with
              Summary :=
                { TotalRequest := l.totalRequest
                  TotalSuccess := wrapInt64 (l.totalRequest - l.totalError)
                  TotalError := l.totalError
                  RequestRatePerSecond := rate
                  RequestDuration := d } } }
      if jsonUnsupported g3.loadTestResult then StopOutcome.marshalError g3
      else StopOutcome.written g3

/-- The summary stored by a call of `Stop` that got as far as building it. -/
def StopOutcome.summary? : StopOutcome → Option Summary
  | StopOutcome.panic _ => none
  | StopOutcome.marshalError g => some g.loadTestResult.Summary
  | StopOutcome.written g => some g.loadTestResult.Summary

/-! ## Auxiliary notions for the proofs -/

/-- The data read by `Stop` is the same in `g1` as in `g`, up to the order inside
each bucket's duration slice. -/
def SameRun (g g1 : Globals) : Prop :=
  g1.requestRate = g.requestRate ∧ g1.errorRate = g.errorRate ∧
    g1.flattenRequestDuration = g.flattenRequestDuration ∧
    ∀ k, (mapGet [] g1.requestDuration k).Perm (mapGet [] g.requestDuration k)

/-- The locals after the iterations for `keys`, when none of them panics. -/
def loopLocals (g : Globals) (keys : List Int) (l : StopLocals) : StopLocals :=
  keys.foldl (fun acc key => nextLocals g key acc) l

/-- The summary built by `Stop` from the locals after the loop over `order` and
the run-wide percentile `d`. -/
def summaryOf (g : Globals) (order : List Int) (d : ℚ) : Summary :=
  { TotalRequest := (loopLocals g order initialLocals).totalRequest
    TotalSuccess :=
      wrapInt64 ((loopLocals g order initialLocals).totalRequest -
        (loopLocals g order initialLocals).totalError)
    TotalError := (loopLocals g order initialLocals).totalError
    RequestRatePerSecond :=
      float64Div ((loopLocals g order initialLocals).totalRequest : ℚ)
        (((loopLocals g order initialLocals).countSeconds - 1 : Int) : ℚ)
    RequestDuration := d }

/-! ## Concrete runs -/

/-- The package-level variables before the first `Start`: Go zero values. -/
def zeroGlobals : Globals :=
  { loadTestResult :=
      { Points := []
        Summary :=
          { TotalRequest := 0
            TotalSuccess := 0
            TotalError := 0
            RequestRatePerSecond := Float64.finite 0
            RequestDuration := 0 } }
    requestRate := []
    errorRate := []
    requestDuration := []
    flattenRequestDuration := [] }

/-- The two batches of the scenario: timestamp 1000 with `http_reqs` 10,
`http_req_failed` 2 and durations 100, 200, 300; timestamp 1001 with `http_reqs` 5
and duration 50. -/
def scenarioBatches : List (List Sample) :=
  [[{ Time := 1000, Name := "http_reqs", Value := 10 },
    { Time := 1000, Name := "http_req_failed", Value := 2 },
    { Time := 1000, Name := "http_req_duration", Value := 100 },
    { Time := 1000, Name := "http_req_duration", Value := 200 },
    { Time := 1000, Name := "http_req_duration", Value := 300 }],
   [{ Time := 1001, Name := "http_reqs", Value := 5 },
    { Time := 1001, Name := "http_req_duration", Value := 50 }]]

/-- The state reached by ingesting `scenarioBatches` after `Start`. -/
def scenarioState : Globals :=
  { zeroGlobals with
    requestRate := [(1000, 10), (1001, 5)]
    errorRate := [(1000, 2)]
    requestDuration := [(1000, [100, 200, 300]), (1001, [50])]
    flattenRequestDuration := [100, 200, 300, 50] }

/-- Twenty-one duration observations, `21` down to `1`. -/
def durations21 : List ℚ :=
  [21, 20, 19, 18, 17, 16, 15, 14, 13, 12, 11, 10, 9, 8, 7, 6, 5, 4, 3, 2, 1]

/-- A run with two buckets of twenty-one durations each and fractional
request-count sums `21/2` and `11/2`. -/
def twoBucketRun : Globals :=
  { zeroGlobals with
    requestRate := [(1000, 21 / 2), (1001, 11 / 2)]
    errorRate := [(1000, 2)]
    requestDuration := [(1000, durations21), (1001, durations21)]
    flattenRequestDuration := durations21 ++ durations21 }

/-- The summary `Stop` stores for `twoBucketRun`. -/
def twoBucketSummary : Summary :=
  { TotalRequest := 15
    TotalSuccess := 13
    TotalError := 2
    RequestRatePerSecond := Float64.finite 15
    RequestDuration := 21 }

/-- The state `Stop` leaves for `twoBucketRun`: slices sorted, points and summary
stored. -/
def twoBucketStopped : Globals :=
  { loadTestResult :=
      { Points :=
          [(1000, { RequestRate := 21 / 2, ErrorRate := 2, RequestDuration := 21 }),
           (1001, { RequestRate := 11 / 2, ErrorRate := 0, RequestDuration := 21 })]
        Summary := twoBucketSummary }
    requestRate := twoBucketRun.requestRate
    errorRate := twoBucketRun.errorRate
    requestDuration := [(1000, sortFloat64s durations21), (1001, sortFloat64s durations21)]
    flattenRequestDuration := sortFloat64s (durations21 ++ durations21) }

/-- A run with a single bucket of twenty-one durations. -/
def oneBucketRun : Globals :=
  { zeroGlobals with
    requestRate := [(1000, 10)]
    errorRate := [(1000, 2)]
    requestDuration := [(1000, durations21)]
    flattenRequestDuration := durations21 }

/-- A run whose only batch held one `http_reqs` sample and no duration. -/
def noDurationRun : Globals :=
  { zeroGlobals with requestRate := [(1000, 10)] }

/-! ## Notions used to state the later properties -/

/-- The values of the samples of a batch that carry the metric `name`, in batch
order. -/
def valuesOf (name : String) (samples : List Sample) : List ℚ :=
  (samples.filter fun s => s.Name = name).map fun s => s.Value

/-- The concatenation of the slices of a duration map over its keys. -/
def bucketDurations (m : GoMap (List ℚ)) : List ℚ :=
  (mapKeys m).flatMap fun k => mapGet [] m k

/-- The state in which an `Outcome` leaves the program. -/
def Outcome.state {σ : Type} : Outcome σ → σ
  | Outcome.done s => s
  | Outcome.panic s => s

/-- The package-level state after a call of `Stop`, however it ended. -/
def StopOutcome.state : StopOutcome → Globals
  | StopOutcome.panic g => g
  | StopOutcome.marshalError g => g
  | StopOutcome.written g => g

/-- The point `Stop` stores for `key`: the two sums and the bucket's percentile
(`0` stands in when `Percentile` panics, in which case no point is stored). -/
def pointOf (g : Globals) (key : Int) : Metric :=
  { RequestRate := mapGet 0 g.requestRate key
    ErrorRate := mapGet 0 g.errorRate key
    RequestDuration := ((Percentile (19 / 20) (mapGet [] g.requestDuration key)).2).getD 0 }

/-- Two association lists are the same Go map: same keys, same value at each key. -/
def SameMap {V : Type} (m m1 : GoMap V) : Prop :=
  ∀ k, mapHas m1 k = mapHas m k ∧ ∀ zero, mapGet zero m1 k = mapGet zero m k

/-- Two states hold the same aggregated data: equal sums at every key, and per-key
duration slices and flat logs that are permutations of each other. -/
def RunEquiv (g g1 : Globals) : Prop :=
  (∀ k, mapGet 0 g1.requestRate k = mapGet 0 g.requestRate k) ∧
    (∀ k, mapGet 0 g1.errorRate k = mapGet 0 g.errorRate k) ∧
    (∀ k, (mapGet [] g1.requestDuration k).Perm (mapGet [] g.requestDuration k)) ∧
    g1.flattenRequestDuration.Perm g.flattenRequestDuration

/-- Two calls of `Stop` end alike: both panic, or both return the marshal error,
or both write, and in the last two cases they leave the same points and the same
summary. -/
def SameStop (o o1 : StopOutcome) : Prop :=
  ((∃ a, o = StopOutcome.panic a) ∧ ∃ a1, o1 = StopOutcome.panic a1) ∨
    (∃ a a1, o = StopOutcome.marshalError a ∧ o1 = StopOutcome.marshalError a1 ∧
      SameMap a.loadTestResult.Points a1.loadTestResult.Points ∧
      a1.loadTestResult.Summary = a.loadTestResult.Summary) ∨
    ∃ a a1, o = StopOutcome.written a ∧ o1 = StopOutcome.written a1 ∧
      SameMap a.loadTestResult.Points a1.loadTestResult.Points ∧
      a1.loadTestResult.Summary = a.loadTestResult.Summary

/-- The batches whose first sample has Unix timestamp `k`. -/
def batchesAt (k : Int) (batches : List (List Sample)) : List (List Sample) :=
  batches.filter fun b => decide (b.head?.map (fun s => s.Time) = some k)

/-- The program state together with the package-level variable `file`, of which
only one fact matters: whether it is an open file.  `os.Create` in `Start` sets
it; a nil or closed file is not open. -/
structure Process where
  globals : Globals
  fileOpen : Bool
  deriving DecidableEq

/-- How a call of the Go method `Stop` ends for its caller. -/
inductive StopReturn where
  | panic
  | error
  | nil
  deriving DecidableEq

/-- The method `Logger.Stop` with its file handling.  A panic or a marshal error
leaves `file` alone (the `defer` is not reached).  Otherwise `file.WriteString`
runs and the deferred `file.Close()` closes the file; `WriteString` fails on a
file that is not open (`os.ErrClosed`, `os.ErrInvalid`) and, on an open file,
succeeds exactly when the operating system lets it (`writeOk`). -/
def StopAndWrite (order : List Int) (writeOk : Bool) (p : Process) : Process × StopReturn :=
  match Stop order p.globals with
  | StopOutcome.panic g => ({ globals := g, fileOpen := p.fileOpen }, StopReturn.panic)
  | StopOutcome.marshalError g => ({ globals := g, fileOpen := p.fileOpen }, StopReturn.error)
  | StopOutcome.written g =>
    ({ globals := g, fileOpen := false },
      if p.fileOpen && writeOk then StopReturn.nil else StopReturn.error)

/-- A batch with timestamp `t`: one `http_reqs` sample of value `reqs` followed by
the twenty-one durations of `durations21`. -/
def bucketBatch (t : Int) (reqs : ℚ) : List Sample :=
  { Time := t, Name := "http_reqs", Value := reqs } ::
    durations21.map fun d => { Time := t, Name := "http_req_duration", Value := d }

/-- Three batches: two full buckets at 1000 and 1001, and a batch at 1002 with one
failure count and one duration but no `http_reqs` sample. -/
def threeBatches : List (List Sample) :=
  [bucketBatch 1000 10, bucketBatch 1001 5,
   [{ Time := 1002, Name := "http_req_failed", Value := 3 },
    { Time := 1002, Name := "http_req_duration", Value := 1 }]]

/-- The state after `Start` and `threeBatches`. -/
def threeBatchState : Globals :=
  (AddMetricSamples threeBatches (Start zeroGlobals)).state

/-- The state `Stop` leaves for `threeBatchState`. -/
def threeBatchStopped : Globals :=
  (Stop [1000, 1001] threeBatchState).state

/-- The twenty-five observations `25` down to `1`. -/
def descending25 : List ℚ :=
  [25, 24, 23, 22] ++ durations21

/-- After `Start` (file created and open) and one batch: a single full bucket at
1000. -/
def firstBucketRun : Process :=
  { globals := (AddMetricSamples [bucketBatch 1000 10] (Start zeroGlobals)).state
    fileOpen := true }

/-- The process after a first `Stop` on `firstBucketRun`. -/
def firstBucketStopped : Process :=
  (StopAndWrite [1000] true firstBucketRun).1

/-- The process after a second batch, at 1001, has been ingested into
`firstBucketStopped`, without a `Start`. -/
def resumedRun : Process :=
  { globals := (AddMetricSamples [bucketBatch 1001 5] firstBucketStopped.globals).state
    fileOpen := firstBucketStopped.fileOpen }

/-! ## Properties of the numeric helpers -/

theorem mathMod1_eq_zero_iff (x : ℚ) : mathMod1 x = 0 ↔ ∃ z : ℤ, (z : ℚ) = x := by
  unfold mathMod1 mathTrunc
  constructor
  · intro h
    exact ⟨_, (sub_eq_zero.mp h).symm⟩
  · rintro ⟨z, rfl⟩
    split <;> simp

theorem wrapInt64_of_range (z : Int) (h1 : -2 ^ 63 ≤ z) (h2 : z < 2 ^ 63) :
    wrapInt64 z = z := by
  unfold wrapInt64
  omega

theorem wrapInt64_add_left (a b : Int) : wrapInt64 (wrapInt64 a + b) = wrapInt64 (a + b) := by
  unfold wrapInt64
  omega

theorem wrapInt64_idem (z : Int) : wrapInt64 (wrapInt64 z) = wrapInt64 z := by
  unfold wrapInt64
  omega

theorem int64OfFloat_trunc (q : ℚ) (h1 : -2 ^ 63 ≤ q) (h2 : q < 2 ^ 63) :
    |((int64OfFloat q : ℤ) : ℚ)| ≤ |q| ∧ |q| < |((int64OfFloat q : ℤ) : ℚ)| + 1 ∧
      0 ≤ q * ((int64OfFloat q : ℤ) : ℚ) := by
  have hrange : -2 ^ 63 ≤ mathTrunc q ∧ mathTrunc q < 2 ^ 63 := by
    unfold mathTrunc
    split
    · next h0 =>
      constructor
      · have : (0 : ℤ) ≤ ⌊q⌋ := Int.floor_nonneg.mpr h0
        omega
      · exact Int.floor_lt.mpr (by exact_mod_cast h2)
    · next h0 =>
      constructor
      · exact Int.le_ceil_iff.mpr (by push_cast; linarith)
      · have : ⌈q⌉ ≤ 0 := Int.ceil_le.mpr (by push_cast; linarith)
        omega
  have hval : int64OfFloat q = mathTrunc q := by
    unfold int64OfFloat
    rw [if_pos hrange]
  rw [hval]
  unfold mathTrunc
  split
  · next h0 =>
    have hf0 : (0 : ℚ) ≤ (⌊q⌋ : ℚ) := by exact_mod_cast Int.floor_nonneg.mpr h0
    rw [abs_of_nonneg hf0, abs_of_nonneg h0]
    exact ⟨Int.floor_le q, Int.lt_floor_add_one q, mul_nonneg h0 hf0⟩
  · next h0 =>
    have hq : q < 0 := not_le.mp h0
    have hc0 : ((⌈q⌉ : ℤ) : ℚ) ≤ 0 := by
      exact_mod_cast Int.ceil_le.mpr (by push_cast; linarith)
    rw [abs_of_nonpos hc0, abs_of_neg hq]
    refine ⟨by linarith [Int.le_ceil q], by linarith [Int.ceil_lt_add_one q], ?_⟩
    exact mul_nonneg_of_nonpos_of_nonpos hq.le hc0

theorem float64Div_eq_finite (a b x : ℚ) (h : float64Div a b = Float64.finite x) :
    b ≠ 0 ∧ x = a / b := by
  unfold float64Div at h
  by_cases hb : b ≠ 0
  · rw [if_pos hb] at h
    exact ⟨hb, (Float64.finite.inj h).symm⟩
  · rw [if_neg hb] at h
    split at h
    · exact absurd h (by simp)
    · split at h <;> exact absurd h (by simp)

theorem float64Div_zero (a : ℚ) :
    float64Div a 0 = Float64.posInf ∨ float64Div a 0 = Float64.negInf ∨
      float64Div a 0 = Float64.nan := by
  unfold float64Div
  rw [if_neg (by simp)]
  by_cases h1 : 0 < a
  · exact Or.inl (by rw [if_pos h1])
  · by_cases h2 : a < 0
    · exact Or.inr (Or.inl (by rw [if_neg h1, if_pos h2]))
    · exact Or.inr (Or.inr (by rw [if_neg h1, if_neg h2]))

/-- The rounding agrees with IEEE 754 binary64 on known values: the `float64`
nearest to `0.1`, to `0.95` and to `0.28`, a tie above `2 ^ 53` broken to even, and
the products `0.95 * 20` and `0.95 * 21` as `float64` computes them. -/
theorem roundFloat64_known_values :
    roundFloat64 (1 / 10) = 3602879701896397 / 36028797018963968 ∧
      roundFloat64 (19 / 20) = 4278419646001971 / 4503599627370496 ∧
      roundFloat64 (7 / 25) = 1261007895663739 / 4503599627370496 ∧
      roundFloat64 (2 ^ 53 + 1) = 2 ^ 53 ∧ roundFloat64 (2 ^ 53 + 3) = 2 ^ 53 + 4 ∧
      float64Mul (roundFloat64 (19 / 20)) 20 = 19 ∧
      float64Mul (roundFloat64 (19 / 20)) 21 = 5615425785377587 / 281474976710656 := by
  decide!

/-! ## Properties of sorting and indexing -/

theorem sortFloat64s_perm (xs : List ℚ) : (sortFloat64s xs).Perm xs :=
  List.perm_insertionSort _ xs

theorem sortFloat64s_sorted (xs : List ℚ) : (sortFloat64s xs).Sorted (· ≤ ·) :=
  List.sorted_insertionSort _ xs

theorem sortFloat64s_length (xs : List ℚ) : (sortFloat64s xs).length = xs.length :=
  List.length_insertionSort _ xs

theorem eq_sortFloat64s (xs s : List ℚ) (hperm : s.Perm xs) (hsorted : s.Sorted (· ≤ ·)) :
    s = sortFloat64s xs :=
  List.eq_of_perm_of_sorted (hperm.trans (sortFloat64s_perm xs).symm) hsorted
    (sortFloat64s_sorted xs)

theorem sortFloat64s_congr (xs ys : List ℚ) (h : ys.Perm xs) :
    sortFloat64s ys = sortFloat64s xs :=
  eq_sortFloat64s xs _ ((sortFloat64s_perm ys).trans h) (sortFloat64s_sorted ys)

theorem sliceIndex_natCast (xs : List ℚ) (i : ℕ) : sliceIndex xs (i : ℤ) = xs[i]? := by
  simp [sliceIndex]

theorem sliceIndex_length (xs : List ℚ) : sliceIndex xs (xs.length : ℤ) = none := by
  simp [sliceIndex]

/-! ## `Percentile` -/

theorem Percentile_fst (p : ℚ) (xs : List ℚ) : (Percentile p xs).1 = sortFloat64s xs := by
  unfold Percentile
  dsimp only
  split <;> rfl

theorem Percentile_snd (p : ℚ) (xs : List ℚ) :
    (Percentile p xs).2 =
      if mathMod1 (p * (xs.length : ℚ)) = 0 then
        (sliceIndex (sortFloat64s xs) (mathCeil (p * (xs.length : ℚ)))).bind fun a =>
          (sliceIndex (sortFloat64s xs) (mathCeil (p * (xs.length : ℚ)) + 1)).map
            fun b => (a + b) / 2
      else sliceIndex (sortFloat64s xs) (mathCeil (p * (xs.length : ℚ))) := by
  unfold Percentile
  simp only [sortFloat64s_length]
  split <;> rfl

theorem Percentile_congr (p : ℚ) (as bs : List ℚ) (h : as.Perm bs) :
    Percentile p as = Percentile p bs := by
  unfold Percentile
  simp only [sortFloat64s_congr bs as h]

theorem Percentile_nil (p : ℚ) : Percentile p [] = ([], none) := by
  simp [Percentile, sortFloat64s, sliceIndex, mathMod1, mathTrunc]

theorem PercentileFloat_snd (p : ℚ) (xs : List ℚ) :
    (PercentileFloat p xs).2 =
      if mathMod1 (float64Mul p (xs.length : ℚ)) = 0 then
        (sliceIndex (sortFloat64s xs) (mathCeil (float64Mul p (xs.length : ℚ)))).bind fun a =>
          (sliceIndex (sortFloat64s xs) (mathCeil (float64Mul p (xs.length : ℚ)) + 1)).map
            fun b => float64Avg a b
      else sliceIndex (sortFloat64s xs) (mathCeil (float64Mul p (xs.length : ℚ))) := by
  unfold PercentileFloat
  simp only [sortFloat64s_length]
  split <;> rfl

/-- C1 (amended): let `s` be `xs` sorted ascending, `rank` the `float64` product
of `p` and the length `n` of `xs` as the code computes it, and `i = ⌈rank⌉`.  When
`rank` is an integer and `s` has elements `a` at position `i` and `b` at position
`i + 1`, `Percentile` returns their average `(a + b) / 2.0`, computed in `float64`;
when `rank` is not an integer and `s` has an element `a` at position `i`, it
returns `a`. -/
theorem PercentileFloat_at_rank (p : ℚ) (xs s : List ℚ) (i : ℕ) (a b : ℚ)
    (hperm : s.Perm xs) (hsorted : s.Sorted (· ≤ ·))
    (hi : (i : ℤ) = ⌈float64Mul p (xs.length : ℚ)⌉) :
    ((∃ z : ℤ, (z : ℚ) = float64Mul p (xs.length : ℚ)) → s[i]? = some a →
        s[i + 1]? = some b → (PercentileFloat p xs).2 = some (float64Avg a b)) ∧
    ((¬ ∃ z : ℤ, (z : ℚ) = float64Mul p (xs.length : ℚ)) → s[i]? = some a →
        (PercentileFloat p xs).2 = some a) := by
  have hs : s = sortFloat64s xs := eq_sortFloat64s xs s hperm hsorted
  subst hs
  have hidx : mathCeil (float64Mul p (xs.length : ℚ)) = (i : ℤ) := hi.symm
  have hidx1 : mathCeil (float64Mul p (xs.length : ℚ)) + 1 = ((i + 1 : ℕ) : ℤ) := by
    rw [hidx]; push_cast; rfl
  constructor
  · intro hz ha hb
    rw [PercentileFloat_snd, if_pos ((mathMod1_eq_zero_iff _).mpr hz), hidx1, hidx,
      sliceIndex_natCast, sliceIndex_natCast, ha, hb]
    rfl
  · intro hz ha
    rw [PercentileFloat_snd, if_neg (fun h => hz ((mathMod1_eq_zero_iff _).mp h)), hidx,
      sliceIndex_natCast, ha]

/-- Three calls.  With `p` the `float64` value of `0.28` and 25 observations the
rank is `7 + 2⁻⁵⁰`, not an integer, and the element at position 8 is returned.
With `p` the `float64` value of `1.0 / 3.0` and 3 observations the rank is
exactly 1 and the elements at positions 1 and 2 are averaged.  With `p = 1/2` and
4 observations the rank is 2 and positions 2 and 3 are averaged. -/
theorem PercentileFloat_at_rank_witness :
    float64Mul (roundFloat64 (7 / 25)) 25 = 7 + 1 / 2 ^ 50 ∧
      (PercentileFloat (roundFloat64 (7 / 25)) descending25).2 = some 9 ∧
      float64Mul (roundFloat64 (1 / 3)) 3 = 1 ∧
      (PercentileFloat (roundFloat64 (1 / 3)) [9, 6, 3]).2 = some (float64Avg 6 9) ∧
      float64Avg 6 9 = 15 / 2 ∧
      (PercentileFloat (1 / 2) [4, 3, 2, 1]).2 = some (float64Avg 3 4) ∧
      float64Avg 3 4 = 7 / 2 := by
  have hrank : float64Mul (roundFloat64 (7 / 25)) ((descending25.length : ℕ) : ℚ) =
      7881299347898369 / 1125899906842624 := by decide!
  refine ⟨by decide!, ?_, by decide!, ?_, by decide!, ?_, by decide!⟩
  · exact (PercentileFloat_at_rank (roundFloat64 (7 / 25)) descending25
      (sortFloat64s descending25) 8 9 0 (sortFloat64s_perm _) (sortFloat64s_sorted _)
      (by decide!)).2
      (by
        rintro ⟨z, hz⟩
        rw [hrank] at hz
        have h1 : (1125899906842624 : ℚ) * z = 7881299347898369 := by rw [hz]; norm_num
        have h2 : (1125899906842624 : ℤ) * z = 7881299347898369 := by exact_mod_cast h1
        omega)
      (by decide!)
  · exact (PercentileFloat_at_rank (roundFloat64 (1 / 3)) [9, 6, 3] [3, 6, 9] 1 6 9
      (by decide) (by decide) (by decide!)).1 ⟨1, by decide!⟩ rfl rfl
  · exact (PercentileFloat_at_rank (1 / 2) [4, 3, 2, 1] [1, 2, 3, 4] 2 3 4
      (by decide) (by decide) (by decide!)).1 ⟨2, by decide!⟩ rfl rfl

/-- C1 (as stated, refuted): for the non-empty list `[5]` and `p = 1/2` the rank
`1/2` (exact also as a `float64` product) is not an integer and the index is
`⌈1/2⌉ = 1`, but the sorted list has no element at position `1` and `Percentile`
returns nothing: it panics. -/
theorem Percentile_out_of_range :
    (0 : ℚ) ≤ 1 / 2 ∧ (1 / 2 : ℚ) ≤ 1 ∧ ⌈(1 / 2 : ℚ) * (([5] : List ℚ).length : ℚ)⌉ = 1 ∧
      (sortFloat64s [5])[1]? = none ∧ (Percentile (1 / 2) [5]).2 = none ∧
      float64Mul (1 / 2) (([5] : List ℚ).length : ℚ) = 1 / 2 ∧
      (PercentileFloat (1 / 2) [5]).2 = none := by
  decide!

/-- C2 (code at the failing input, and in general): `Percentile 1 xs` returns no
value; with rank `n` the exact-integer branch reads position `n` of a slice of
length `n` and panics, on `[3, 1, 2]` as on every other slice. -/
theorem Percentile_one_panics :
    (Percentile 1 [3, 1, 2]).2 = none ∧ ∀ xs : List ℚ, (Percentile 1 xs).2 = none := by
  have h : ∀ xs : List ℚ, (Percentile 1 xs).2 = none := by
    intro xs
    have hm : mathMod1 (1 * (xs.length : ℚ)) = 0 :=
      (mathMod1_eq_zero_iff _).mpr ⟨(xs.length : ℤ), by simp⟩
    have hc : mathCeil (1 * (xs.length : ℚ)) = ((sortFloat64s xs).length : ℤ) := by
      simp [mathCeil, sortFloat64s_length]
    rw [Percentile_snd, if_pos hm, hc, sliceIndex_length]
    rfl
  exact ⟨h _, h⟩

/-- C4: the value returned by `Percentile` (or its panic) is the same for every
permutation `ys` of `xs`, in particular for `xs` sorted ascending beforehand. -/
theorem Percentile_perm (p : ℚ) (xs ys : List ℚ) (h : ys.Perm xs) :
    (Percentile p ys).2 = (Percentile p xs).2 ∧
      (Percentile p (sortFloat64s xs)).2 = (Percentile p xs).2 :=
  ⟨congrArg Prod.snd (Percentile_congr p ys xs h),
    congrArg Prod.snd (Percentile_congr p _ xs (sortFloat64s_perm xs))⟩

theorem Percentile_perm_witness :
    (Percentile (1 / 2) [2, 4, 1, 3]).2 = (Percentile (1 / 2) [1, 2, 3, 4]).2 ∧
      (Percentile (1 / 2) (sortFloat64s [1, 2, 3, 4])).2 =
        (Percentile (1 / 2) [1, 2, 3, 4]).2 :=
  Percentile_perm (1 / 2) [1, 2, 3, 4] [2, 4, 1, 3] (by decide)

/-! ## Properties of the map operations -/

theorem mapGet_mapSet {V : Type} (zero : V) (m : GoMap V) (k k' : Int) (v : V) :
    mapGet zero (mapSet m k v) k' = if k = k' then v else mapGet zero m k' := by
  induction m with
  | nil => simp [mapSet, mapGet]
  | cons e rest ih =>
    obtain ⟨k0, w⟩ := e
    by_cases h0 : k0 = k
    · subst h0
      by_cases h1 : k0 = k' <;> simp [mapSet, mapGet, h1]
    · by_cases h1 : k0 = k'
      · subst h1
        simp [mapSet, mapGet, h0, Ne.symm h0]
      · simp [mapSet, mapGet, h0, h1, ih]

theorem mapGet_of_not_mapHas {V : Type} (zero : V) (m : GoMap V) (k : Int)
    (h : mapHas m k = false) : mapGet zero m k = zero := by
  induction m with
  | nil => rfl
  | cons e rest ih =>
    obtain ⟨k0, w⟩ := e
    simp only [mapHas, List.map_cons, List.mem_cons, decide_eq_false_iff_not, not_or] at h ih
    simp only [mapGet, if_neg (Ne.symm h.1)]
    exact ih h.2

theorem mapGet_mapSortInPlace (m : GoMap (List ℚ)) (k k' : Int) :
    (mapGet [] (mapSortInPlace m k (sortFloat64s (mapGet [] m k))) k').Perm (mapGet [] m k') := by
  unfold mapSortInPlace
  split
  · rw [mapGet_mapSet]
    split
    · next h => subst h; exact sortFloat64s_perm _
    · exact List.Perm.refl _
  · exact List.Perm.refl _

/-! ## The loop of `Stop` -/

theorem SameRun.refl (g : Globals) : SameRun g g :=
  ⟨rfl, rfl, rfl, fun _ => List.Perm.refl _⟩

theorem SameRun.trans {g g1 g2 : Globals} (h1 : SameRun g g1) (h2 : SameRun g1 g2) :
    SameRun g g2 :=
  ⟨h2.1.trans h1.1, h2.2.1.trans h1.2.1, h2.2.2.1.trans h1.2.2.1,
    fun k => (h2.2.2.2 k).trans (h1.2.2.2 k)⟩

theorem SameRun.percentile {g g1 : Globals} (h : SameRun g g1) (p : ℚ) (k : Int) :
    (Percentile p (mapGet [] g1.requestDuration k)).2 =
      (Percentile p (mapGet [] g.requestDuration k)).2 :=
  congrArg Prod.snd (Percentile_congr p _ _ (h.2.2.2 k))

theorem SameRun.nextLocals {g g1 : Globals} (h : SameRun g g1) (key : Int) (l : StopLocals) :
    nextLocals g1 key l = nextLocals g key l := by
  unfold Log.nextLocals
  rw [h.1, h.2.1]

theorem SameRun.loopLocals {g g1 : Globals} (h : SameRun g g1) (keys : List Int)
    (l : StopLocals) : loopLocals g1 keys l = loopLocals g keys l := by
  unfold Log.loopLocals
  congr 1
  funext acc key
  exact h.nextLocals key acc

theorem stopIteration_panic (key : Int) (g : Globals) (l : StopLocals)
    (h : (Percentile (19 / 20) (mapGet [] g.requestDuration key)).2 = none) :
    ∃ g1, stopIteration key g l = Outcome.panic (g1, nextLocals g key l) ∧ SameRun g g1 := by
  unfold stopIteration
  simp only [h]
  exact ⟨_, rfl, rfl, rfl, rfl, fun k => by
    simp only [Percentile_fst]
    exact mapGet_mapSortInPlace _ _ _⟩

theorem stopIteration_done (key : Int) (g : Globals) (l : StopLocals) (d : ℚ)
    (h : (Percentile (19 / 20) (mapGet [] g.requestDuration key)).2 = some d) :
    ∃ g1, stopIteration key g l = Outcome.done (g1, nextLocals g key l) ∧ SameRun g g1 ∧
      g1.loadTestResult.Points =
        mapSet g.loadTestResult.Points key
          { RequestRate := mapGet 0 g.requestRate key
            ErrorRate := mapGet 0 g.errorRate key
            RequestDuration := d } ∧
      g1.loadTestResult.Summary = g.loadTestResult.Summary := by
  unfold stopIteration
  simp only [h]
  exact ⟨_, rfl, ⟨rfl, rfl, rfl, fun k => by
    simp only [Percentile_fst]
    exact mapGet_mapSortInPlace _ _ _⟩, rfl, rfl⟩

theorem stopLoop_done (keys : List Int) (g : Globals) (l : StopLocals)
    (h : ∀ k ∈ keys, (Percentile (19 / 20) (mapGet [] g.requestDuration k)).2 ≠ none) :
    ∃ g1, stopLoop keys g l = Outcome.done (g1, loopLocals g keys l) ∧ SameRun g g1 := by
  induction keys generalizing g l with
  | nil => exact ⟨g, rfl, SameRun.refl g⟩
  | cons key rest ih =>
    obtain ⟨d, hd⟩ := Option.ne_none_iff_exists'.mp (h key (List.mem_cons_self _ _))
    obtain ⟨g1, hstep, hsame, -, -⟩ := stopIteration_done key g l d hd
    have hrest : ∀ k ∈ rest,
        (Percentile (19 / 20) (mapGet [] g1.requestDuration k)).2 ≠ none := by
      intro k hk
      rw [hsame.percentile]
      exact h k (List.mem_cons_of_mem _ hk)
    obtain ⟨g2, hloop, hsame2⟩ := ih g1 (nextLocals g key l) hrest
    refine ⟨g2, ?_, hsame.trans hsame2⟩
    simp only [stopLoop, hstep, hloop, hsame.loopLocals]
    rfl

theorem stopLoop_panic (keys : List Int) (g : Globals) (l : StopLocals)
    (h : ∃ k ∈ keys, (Percentile (19 / 20) (mapGet [] g.requestDuration k)).2 = none) :
    ∃ s, stopLoop keys g l = Outcome.panic s ∧ SameRun g s.1 := by
  induction keys generalizing g l with
  | nil =>
    obtain ⟨k, hk, -⟩ := h
    exact absurd hk (List.not_mem_nil k)
  | cons key rest ih =>
    cases hkey : (Percentile (19 / 20) (mapGet [] g.requestDuration key)).2 with
    | none =>
      obtain ⟨g1, hstep, hsame⟩ := stopIteration_panic key g l hkey
      exact ⟨(g1, nextLocals g key l), by simp only [stopLoop, hstep], hsame⟩
    | some d =>
      obtain ⟨g1, hstep, hsame, -, -⟩ := stopIteration_done key g l d hkey
      obtain ⟨k, hk, hnone⟩ := h
      have hk' : k ∈ rest := by
        rcases List.mem_cons.mp hk with rfl | hk'
        · rw [hkey] at hnone
          exact absurd hnone (by simp)
        · exact hk'
      obtain ⟨s, hloop, hsame2⟩ :=
        ih g1 (nextLocals g key l) ⟨k, hk', by rw [hsame.percentile]; exact hnone⟩
      exact ⟨s, by simp only [stopLoop, hstep, hloop], hsame.trans hsame2⟩

theorem loopLocals_totalRequest (g : Globals) (keys : List Int) (l : StopLocals)
    (hl : wrapInt64 l.totalRequest = l.totalRequest) :
    (loopLocals g keys l).totalRequest =
      wrapInt64 (l.totalRequest +
        (keys.map fun k => int64OfFloat (mapGet 0 g.requestRate k)).sum) := by
  induction keys generalizing l with
  | nil => simpa [loopLocals] using hl.symm
  | cons key rest ih =>
    have h := ih (nextLocals g key l) (wrapInt64_idem _)
    simp only [loopLocals, List.foldl_cons] at h ⊢
    rw [h]
    simp only [nextLocals, List.map_cons, List.sum_cons, wrapInt64_add_left, add_assoc]

theorem loopLocals_totalError (g : Globals) (keys : List Int) (l : StopLocals)
    (hl : wrapInt64 l.totalError = l.totalError) :
    (loopLocals g keys l).totalError =
      wrapInt64 (l.totalError +
        (keys.map fun k => int64OfFloat (mapGet 0 g.errorRate k)).sum) := by
  induction keys generalizing l with
  | nil => simpa [loopLocals] using hl.symm
  | cons key rest ih =>
    have h := ih (nextLocals g key l) (wrapInt64_idem _)
    simp only [loopLocals, List.foldl_cons] at h ⊢
    rw [h]
    simp only [nextLocals, List.map_cons, List.sum_cons, wrapInt64_add_left, add_assoc]

theorem loopLocals_countSeconds (g : Globals) (keys : List Int) (l : StopLocals) :
    (loopLocals g keys l).countSeconds = l.countSeconds + (keys.length : Int) := by
  induction keys generalizing l with
  | nil => simp [loopLocals]
  | cons key rest ih =>
    have h := ih (nextLocals g key l)
    simp only [loopLocals, List.foldl_cons] at h ⊢
    rw [h]
    simp only [nextLocals, List.length_cons]
    push_cast
    ring

/-! ## The result of `Stop` -/

theorem Stop_panic_of_bucket (order : List Int) (g : Globals)
    (h : ∃ k ∈ order, (Percentile (19 / 20) (mapGet [] g.requestDuration k)).2 = none) :
    ∃ g1, Stop order g = StopOutcome.panic g1 := by
  obtain ⟨s, hloop, -⟩ := stopLoop_panic order g initialLocals h
  obtain ⟨g1, l1⟩ := s
  exact ⟨g1, by simp only [Stop, hloop]⟩

theorem Stop_of_buckets (order : List Int) (g : Globals)
    (h : ∀ k ∈ order, (Percentile (19 / 20) (mapGet [] g.requestDuration k)).2 ≠ none) :
    ∃ g1, SameRun g g1 ∧
      Stop order g =
        match (Percentile (19 / 20) g.flattenRequestDuration).2 with
        | none =>
          StopOutcome.panic
            { g1 with flattenRequestDuration := sortFloat64s g.flattenRequestDuration }
        | some d =>
          let g3 : Globals :=
            { g1 with
              flattenRequestDuration := sortFloat64s g.flattenRequestDuration
              loadTestResult := { g1.loadTestResult with Summary := summaryOf g order d } }
          if jsonUnsupported g3.loadTestResult then StopOutcome.marshalError g3
          else StopOutcome.written g3 := by
  obtain ⟨g1, hloop, hsame⟩ := stopLoop_done order g initialLocals h
  refine ⟨g1, hsame, ?_⟩
  simp only [Stop, hloop, hsame.2.2.1, Percentile_fst, summaryOf]

theorem Stop_summary (order : List Int) (g : Globals) (sm : Summary)
    (h : (Stop order g).summary? = some sm) :
    ∃ d, (Percentile (19 / 20) g.flattenRequestDuration).2 = some d ∧
      (∀ k ∈ order, (Percentile (19 / 20) (mapGet [] g.requestDuration k)).2 ≠ none) ∧
      sm = summaryOf g order d := by
  by_cases hall : ∀ k ∈ order,
      (Percentile (19 / 20) (mapGet [] g.requestDuration k)).2 ≠ none
  · obtain ⟨g1, -, hstop⟩ := Stop_of_buckets order g hall
    rw [hstop] at h
    cases hd : (Percentile (19 / 20) g.flattenRequestDuration).2 with
    | none =>
      rw [hd] at h
      simp [StopOutcome.summary?] at h
    | some d =>
      rw [hd] at h
      refine ⟨d, rfl, hall, ?_⟩
      dsimp only at h
      split at h <;> simp only [StopOutcome.summary?, Option.some.injEq] at h <;> exact h.symm
  · push_neg at hall
    obtain ⟨g1, hstop⟩ := Stop_panic_of_bucket order g hall
    rw [hstop] at h
    simp [StopOutcome.summary?] at h

theorem Stop_written (order : List Int) (g g1 : Globals)
    (h : Stop order g = StopOutcome.written g1) :
    (Stop order g).summary? = some g1.loadTestResult.Summary ∧
      jsonUnsupported g1.loadTestResult = false := by
  refine ⟨by rw [h]; rfl, ?_⟩
  by_cases hall : ∀ k ∈ order,
      (Percentile (19 / 20) (mapGet [] g.requestDuration k)).2 ≠ none
  · obtain ⟨g2, -, hstop⟩ := Stop_of_buckets order g hall
    rw [hstop] at h
    cases hd : (Percentile (19 / 20) g.flattenRequestDuration).2 with
    | none =>
      rw [hd] at h
      exact absurd h (by simp)
    | some d =>
      rw [hd] at h
      dsimp only at h
      split at h
      · exact absurd h (by simp)
      · next hj =>
        rw [← StopOutcome.written.inj h]
        simpa using hj
  · push_neg at hall
    obtain ⟨g2, hstop⟩ := Stop_panic_of_bucket order g hall
    rw [hstop] at h
    exact absurd h (by simp)

theorem Stop_summary_cases (order : List Int) (g : Globals) (sm : Summary)
    (h : (Stop order g).summary? = some sm) :
    (∃ g1, Stop order g = StopOutcome.marshalError g1 ∧ g1.loadTestResult.Summary = sm ∧
        jsonUnsupported g1.loadTestResult = true) ∨
      (∃ g1, Stop order g = StopOutcome.written g1 ∧ g1.loadTestResult.Summary = sm) := by
  by_cases hall : ∀ k ∈ order,
      (Percentile (19 / 20) (mapGet [] g.requestDuration k)).2 ≠ none
  · obtain ⟨g2, -, hstop⟩ := Stop_of_buckets order g hall
    rw [hstop] at h ⊢
    cases hd : (Percentile (19 / 20) g.flattenRequestDuration).2 with
    | none =>
      rw [hd] at h
      simp [StopOutcome.summary?] at h
    | some d =>
      rw [hd] at h
      dsimp only at h ⊢
      split
      · next hj =>
        rw [if_pos hj] at h
        exact Or.inl ⟨_, rfl, by simpa [StopOutcome.summary?] using h, hj⟩
      · next hj =>
        rw [if_neg hj] at h
        exact Or.inr ⟨_, rfl, by simpa [StopOutcome.summary?] using h⟩
  · push_neg at hall
    obtain ⟨g2, hstop⟩ := Stop_panic_of_bucket order g hall
    rw [hstop] at h
    simp [StopOutcome.summary?] at h

theorem summaryOf_totalRequest (g : Globals) (order : List Int) (d : ℚ) :
    (summaryOf g order d).TotalRequest =
      wrapInt64 (order.map fun k => int64OfFloat (mapGet 0 g.requestRate k)).sum := by
  unfold summaryOf
  simp only
  rw [loopLocals_totalRequest _ _ _ (by decide)]
  simp [initialLocals]

theorem summaryOf_totalError (g : Globals) (order : List Int) (d : ℚ) :
    (summaryOf g order d).TotalError =
      wrapInt64 (order.map fun k => int64OfFloat (mapGet 0 g.errorRate k)).sum := by
  unfold summaryOf
  simp only
  rw [loopLocals_totalError _ _ _ (by decide)]
  simp [initialLocals]

theorem summaryOf_rate (g : Globals) (order : List Int) (d : ℚ) :
    (summaryOf g order d).RequestRatePerSecond =
      float64Div ((summaryOf g order d).TotalRequest : ℚ) ((order.length : ℚ) - 1) := by
  unfold summaryOf
  simp only
  rw [loopLocals_countSeconds]
  simp [initialLocals]

/-! ## The claims about `Stop` and `AggregateSamples` -/

/-- C3 (code at the scenario input): ingesting the two scenario batches after
`Start` returns normally with `scenarioState`, whose request-rate keys are 1000
and 1001; on it `Stop` panics in either iteration order, because every
`Percentile` call the expected result is written with (on `[100, 200, 300]`, on
`[50]` and on all four durations) indexes past the end of its slice. -/
theorem Stop_scenario_panics :
    AddMetricSamples scenarioBatches (Start zeroGlobals) = Outcome.done scenarioState ∧
      mapKeys scenarioState.requestRate = [1000, 1001] ∧
      Stop [1000, 1001] scenarioState = StopOutcome.panic scenarioState ∧
      Stop [1001, 1000] scenarioState = StopOutcome.panic scenarioState ∧
      (Percentile (19 / 20) [100, 200, 300]).2 = none ∧
      (Percentile (19 / 20) [50]).2 = none ∧
      (Percentile (19 / 20) [100, 200, 300, 50]).2 = none := by
  decide!

/-- C5: whenever `Stop` stores a summary, its `TotalSuccess` is `TotalRequest`
minus `TotalError`, computed in `int64`. -/
theorem Stop_totalSuccess (order : List Int) (g : Globals) (sm : Summary)
    (h : (Stop order g).summary? = some sm) :
    sm.TotalSuccess = wrapInt64 (sm.TotalRequest - sm.TotalError) := by
  obtain ⟨d, -, -, hsm⟩ := Stop_summary order g sm h
  rw [hsm]
  rfl

theorem Stop_totalSuccess_witness :
    (Stop (mapKeys twoBucketRun.requestRate) twoBucketRun).summary? = some twoBucketSummary ∧
      twoBucketSummary.TotalSuccess =
        wrapInt64 (twoBucketSummary.TotalRequest - twoBucketSummary.TotalError) :=
  ⟨by decide!,
    Stop_totalSuccess (mapKeys twoBucketRun.requestRate) twoBucketRun twoBucketSummary
      (by decide!)⟩

/-- C6 (as stated, refuted): on `oneBucketRun`, which has exactly one request-rate
bucket, the rate computation does not fail; `Stop` stores a summary whose
`RequestRatePerSecond` is `+Inf`. -/
theorem Stop_oneBucket_infinite :
    mapKeys oneBucketRun.requestRate = [1000] ∧
      ((Stop [1000] oneBucketRun).summary?.map fun sm => sm.RequestRatePerSecond) =
        some Float64.posInf := by
  decide!

/-- C6 (amended): with exactly one request-rate bucket `Stop` never completes with
a written result; whenever it gets as far as storing a summary, that summary has
`RequestRatePerSecond` equal to `+Inf`, `-Inf` or `NaN`, and `Stop` ends by
returning the error of `json.MarshalIndent`. -/
theorem Stop_single_bucket (order : List Int) (g : Globals)
    (horder : order.Perm (mapKeys g.requestRate))
    (h1 : (mapKeys g.requestRate).length = 1) :
    (∀ g1, Stop order g ≠ StopOutcome.written g1) ∧
      ∀ sm, (Stop order g).summary? = some sm →
        (∃ g1, Stop order g = StopOutcome.marshalError g1 ∧ g1.loadTestResult.Summary = sm) ∧
        (sm.RequestRatePerSecond = Float64.posInf ∨ sm.RequestRatePerSecond = Float64.negInf ∨
          sm.RequestRatePerSecond = Float64.nan) := by
  have hlen : ((order.length : ℚ) - 1) = 0 := by
    rw [horder.length_eq, h1]
    norm_num
  have hrate : ∀ sm, (Stop order g).summary? = some sm →
      sm.RequestRatePerSecond = Float64.posInf ∨ sm.RequestRatePerSecond = Float64.negInf ∨
        sm.RequestRatePerSecond = Float64.nan := by
    intro sm hsm
    obtain ⟨d, -, -, hval⟩ := Stop_summary order g sm hsm
    rw [hval, summaryOf_rate, hlen]
    exact float64Div_zero _
  have hnot : ∀ g1, Stop order g ≠ StopOutcome.written g1 := by
    intro g1 hw
    obtain ⟨hsm, hfin⟩ := Stop_written order g g1 hw
    have := hrate _ hsm
    unfold jsonUnsupported at hfin
    rcases this with h | h | h <;> rw [h] at hfin <;> simp at hfin
  refine ⟨hnot, fun sm hsm => ⟨?_, hrate sm hsm⟩⟩
  rcases Stop_summary_cases order g sm hsm with ⟨g1, hg1, hs, -⟩ | ⟨g1, hg1, -⟩
  · exact ⟨g1, hg1, hs⟩
  · exact absurd hg1 (hnot g1)

theorem Stop_single_bucket_witness :
    (∀ g1, Stop [1000] oneBucketRun ≠ StopOutcome.written g1) ∧
      ∀ sm, (Stop [1000] oneBucketRun).summary? = some sm →
        (∃ g1, Stop [1000] oneBucketRun = StopOutcome.marshalError g1 ∧
          g1.loadTestResult.Summary = sm) ∧
        (sm.RequestRatePerSecond = Float64.posInf ∨ sm.RequestRatePerSecond = Float64.negInf ∨
          sm.RequestRatePerSecond = Float64.nan) :=
  Stop_single_bucket [1000] oneBucketRun (by decide) (by decide)

/-- C7: `Percentile` on an empty slice panics for every `p`; hence `Stop` panics
whenever some key of `requestRate` has no duration observation or
`flattenRequestDuration` is empty. -/
theorem Stop_panics_without_durations :
    (∀ p : ℚ, (Percentile p []).2 = none) ∧
      ∀ (order : List Int) (g : Globals), order.Perm (mapKeys g.requestRate) →
        ((∃ k ∈ mapKeys g.requestRate, mapGet [] g.requestDuration k = []) ∨
            g.flattenRequestDuration = []) →
          ∃ g1, Stop order g = StopOutcome.panic g1 := by
  refine ⟨fun p => by rw [Percentile_nil], fun order g horder h => ?_⟩
  by_cases hall : ∀ k ∈ order,
      (Percentile (19 / 20) (mapGet [] g.requestDuration k)).2 ≠ none
  · rcases h with ⟨k, hk, hnil⟩ | hflat
    · exact absurd (by rw [hnil, Percentile_nil]) (hall k (horder.mem_iff.mpr hk))
    · obtain ⟨g1, -, hstop⟩ := Stop_of_buckets order g hall
      rw [hflat, Percentile_nil] at hstop
      exact ⟨_, hstop⟩
  · push_neg at hall
    exact Stop_panic_of_bucket order g hall

theorem Stop_panics_without_durations_witness :
    (∃ g1, Stop [1000] noDurationRun = StopOutcome.panic g1) ∧
      ∃ g1, Stop [1000] { oneBucketRun with flattenRequestDuration := [] } =
        StopOutcome.panic g1 :=
  ⟨Stop_panics_without_durations.2 [1000] noDurationRun (by decide)
      (Or.inl ⟨1000, by decide, by decide⟩),
   Stop_panics_without_durations.2 [1000] { oneBucketRun with flattenRequestDuration := [] }
      (by decide) (Or.inr rfl)⟩

/-- C8: `AggregateSamples` on an empty batch does not return normally: it panics
at `samples[0]`, and the package-level state at the panic is the state before the
call, so `requestRate`, `errorRate`, `requestDuration` and
`flattenRequestDuration` are exactly as they were; in `AddMetricSamples` an empty
batch that follows accepted batches ends the call with exactly the state those
batches had accumulated. -/
theorem AggregateSamples_empty (g : Globals) :
    AggregateSamples [] g = Outcome.panic g ∧
      ∀ (pre post : List (List Sample)) (g1 : Globals),
        AddMetricSamples pre g = Outcome.done g1 →
          AddMetricSamples (pre ++ [] :: post) g = Outcome.panic g1 := by
  refine ⟨rfl, fun pre post => ?_⟩
  induction pre generalizing g with
  | nil =>
    intro g1 h
    have hg : g = g1 := Outcome.done.inj h
    subst hg
    rfl
  | cons batch rest ih =>
    intro g1 h
    simp only [AddMetricSamples, List.cons_append] at h ⊢
    cases hb : AggregateSamples batch g with
    | done g2 =>
      rw [hb] at h
      exact ih g2 g1 h
    | panic g2 =>
      rw [hb] at h
      exact absurd h (by simp)

theorem AggregateSamples_empty_witness :
    AggregateSamples [] scenarioState = Outcome.panic scenarioState ∧
      AddMetricSamples (scenarioBatches ++ [] :: scenarioBatches) (Start zeroGlobals) =
        Outcome.panic scenarioState :=
  ⟨(AggregateSamples_empty scenarioState).1,
    (AggregateSamples_empty (Start zeroGlobals)).2 scenarioBatches scenarioBatches
      scenarioState (by decide!)⟩

/-- C9: the totals of a stored summary are `int64` sums, over the keys of
`requestRate`, of the per-bucket conversions `int64(requestRate[k])` and
`int64(errorRate[k])`; a key without failure entry contributes `0`; the conversion
of a value in the `int64` range is its truncation toward zero; and an `int64` sum
that does not overflow is the integer sum. -/
theorem Stop_totals (order : List Int) (g : Globals) (sm : Summary)
    (horder : order.Perm (mapKeys g.requestRate))
    (h : (Stop order g).summary? = some sm) :
    sm.TotalRequest =
        wrapInt64 ((mapKeys g.requestRate).map fun k =>
          int64OfFloat (mapGet 0 g.requestRate k)).sum ∧
      sm.TotalError =
        wrapInt64 ((mapKeys g.requestRate).map fun k =>
          int64OfFloat (mapGet 0 g.errorRate k)).sum ∧
      (∀ k, mapHas g.errorRate k = false → int64OfFloat (mapGet 0 g.errorRate k) = 0) ∧
      (∀ q : ℚ, -2 ^ 63 ≤ q → q < 2 ^ 63 →
        |((int64OfFloat q : ℤ) : ℚ)| ≤ |q| ∧ |q| < |((int64OfFloat q : ℤ) : ℚ)| + 1 ∧
          0 ≤ q * ((int64OfFloat q : ℤ) : ℚ)) ∧
      ∀ z : ℤ, -2 ^ 63 ≤ z → z < 2 ^ 63 → wrapInt64 z = z := by
  obtain ⟨d, -, -, hsm⟩ := Stop_summary order g sm h
  refine ⟨?_, ?_, ?_, int64OfFloat_trunc, wrapInt64_of_range⟩
  · rw [hsm, summaryOf_totalRequest, (horder.map _).sum_eq]
  · rw [hsm, summaryOf_totalError, (horder.map _).sum_eq]
  · intro k hk
    rw [mapGet_of_not_mapHas 0 _ _ hk]
    decide!

theorem Stop_totals_witness :
    (Stop [1001, 1000] twoBucketRun).summary? = some twoBucketSummary ∧
      twoBucketSummary.TotalRequest =
        wrapInt64 ((mapKeys twoBucketRun.requestRate).map fun k =>
          int64OfFloat (mapGet 0 twoBucketRun.requestRate k)).sum ∧
      twoBucketSummary.TotalRequest = 15 ∧
      ((mapKeys twoBucketRun.requestRate).map fun k =>
        mapGet 0 twoBucketRun.requestRate k).sum = 16 :=
  ⟨by decide!,
    (Stop_totals [1001, 1000] twoBucketRun twoBucketSummary (by decide) (by decide!)).1,
    rfl, by decide!⟩

/-- C10: whenever `Stop` completes with a written result, the stored
`RequestRatePerSecond` is the finite quotient of `TotalRequest` by the number of
`requestRate` keys minus one, and that number of keys is not one; this covers
every run with at least two buckets in which `Stop` succeeds. -/
theorem Stop_requestRatePerSecond (order : List Int) (g g1 : Globals)
    (horder : order.Perm (mapKeys g.requestRate))
    (h : Stop order g = StopOutcome.written g1) :
    g1.loadTestResult.Summary.RequestRatePerSecond =
        Float64.finite
          ((g1.loadTestResult.Summary.TotalRequest : ℚ) /
            (((mapKeys g.requestRate).length : ℚ) - 1)) ∧
      (mapKeys g.requestRate).length ≠ 1 := by
  obtain ⟨hsm, hfin⟩ := Stop_written order g g1 h
  obtain ⟨d, -, -, hval⟩ := Stop_summary order g _ hsm
  have hrate : g1.loadTestResult.Summary.RequestRatePerSecond =
      float64Div (g1.loadTestResult.Summary.TotalRequest : ℚ)
        (((mapKeys g.requestRate).length : ℚ) - 1) := by
    rw [← horder.length_eq]
    conv_lhs => rw [hval]
    conv_rhs => rw [hval]
    exact summaryOf_rate g order d
  unfold jsonUnsupported at hfin
  cases hr : g1.loadTestResult.Summary.RequestRatePerSecond with
  | finite x =>
    rw [hr] at hrate
    obtain ⟨hne, hx⟩ := float64Div_eq_finite _ _ _ hrate.symm
    refine ⟨by rw [hx], fun h1 => hne ?_⟩
    rw [h1]
    norm_num
  | posInf => rw [hr] at hfin; simp at hfin
  | negInf => rw [hr] at hfin; simp at hfin
  | nan => rw [hr] at hfin; simp at hfin

theorem Stop_requestRatePerSecond_witness :
    Stop [1000, 1001] twoBucketRun = StopOutcome.written twoBucketStopped ∧
      twoBucketStopped.loadTestResult.Summary.RequestRatePerSecond =
        Float64.finite
          ((twoBucketStopped.loadTestResult.Summary.TotalRequest : ℚ) /
            (((mapKeys twoBucketRun.requestRate).length : ℚ) - 1)) ∧
      (mapKeys twoBucketRun.requestRate).length ≠ 1 :=
  ⟨by decide!,
    Stop_requestRatePerSecond [1000, 1001] twoBucketRun twoBucketStopped (by decide)
      (by decide!)⟩

/-! ## More on `Percentile`: in-place sort, boundary ranks, monotonicity -/

theorem sliceIndex_eq_some (xs : List ℚ) (z : ℤ) (a : ℚ) :
    sliceIndex xs z = some a ↔ ∃ i : ℕ, (i : ℤ) = z ∧ xs[i]? = some a := by
  unfold sliceIndex
  constructor
  · intro h
    by_cases hz : 0 ≤ z
    · rw [if_pos hz] at h
      exact ⟨z.toNat, Int.toNat_of_nonneg hz, h⟩
    · rw [if_neg hz] at h
      exact absurd h (by simp)
  · rintro ⟨i, rfl, hi⟩
    simpa using hi

theorem sorted_getElem?_le (s : List ℚ) (hs : s.Sorted (· ≤ ·)) (i j : ℕ) (a b : ℚ)
    (hij : i ≤ j) (ha : s[i]? = some a) (hb : s[j]? = some b) : a ≤ b := by
  obtain ⟨hi, rfl⟩ := List.getElem?_eq_some_iff.mp ha
  obtain ⟨hj, rfl⟩ := List.getElem?_eq_some_iff.mp hb
  have := hs.rel_get_of_le (a := ⟨i, hi⟩) (b := ⟨j, hj⟩) hij
  simpa using this

theorem mem_of_getElem?_sortFloat64s (xs : List ℚ) (i : ℕ) (a : ℚ)
    (h : (sortFloat64s xs)[i]? = some a) : a ∈ xs :=
  (sortFloat64s_perm xs).mem_iff.mp (List.getElem?_mem h)

/-- The two ways in which `Percentile` returns a value. -/
theorem Percentile_eq_some (p : ℚ) (xs : List ℚ) (v : ℚ) (h : (Percentile p xs).2 = some v) :
    ∃ i : ℕ, (i : ℤ) = ⌈p * (xs.length : ℚ)⌉ ∧
      (((∃ z : ℤ, (z : ℚ) = p * (xs.length : ℚ)) ∧
          ∃ a b, (sortFloat64s xs)[i]? = some a ∧ (sortFloat64s xs)[i + 1]? = some b ∧
            v = (a + b) / 2) ∨
        ((¬ ∃ z : ℤ, (z : ℚ) = p * (xs.length : ℚ)) ∧ (sortFloat64s xs)[i]? = some v)) := by
  rw [Percentile_snd] at h
  by_cases hm : mathMod1 (p * (xs.length : ℚ)) = 0
  · rw [if_pos hm] at h
    obtain ⟨a, ha, hrest⟩ := Option.bind_eq_some.mp h
    obtain ⟨b, hb, hv⟩ := Option.map_eq_some'.mp hrest
    obtain ⟨i, hi, hia⟩ := (sliceIndex_eq_some _ _ _).mp ha
    obtain ⟨j, hj, hjb⟩ := (sliceIndex_eq_some _ _ _).mp hb
    have hji : j = i + 1 := by
      have : (j : ℤ) = (i : ℤ) + 1 := by rw [hj, hi]
      omega
    subst hji
    exact ⟨i, hi, Or.inl ⟨(mathMod1_eq_zero_iff _).mp hm, a, b, hia, hjb, hv.symm⟩⟩
  · rw [if_neg hm] at h
    obtain ⟨i, hi, hia⟩ := (sliceIndex_eq_some _ _ _).mp h
    exact ⟨i, hi, Or.inr ⟨fun hz => hm ((mathMod1_eq_zero_iff _).mpr hz), hia⟩⟩

/-- C17: whatever `Percentile` returns, the caller's slice after the call is
sorted ascending and is a permutation of its contents before the call (so it has
the same length and the same elements with the same multiplicities). -/
theorem Percentile_sorts_in_place (p : ℚ) (xs : List ℚ) :
    (Percentile p xs).1.Sorted (· ≤ ·) ∧ (Percentile p xs).1.Perm xs ∧
      (Percentile p xs).1.length = xs.length ∧
      ∀ x : ℚ, (Percentile p xs).1.count x = xs.count x := by
  rw [Percentile_fst]
  exact ⟨sortFloat64s_sorted xs, sortFloat64s_perm xs, sortFloat64s_length xs,
    fun x => (sortFloat64s_perm xs).count_eq x⟩

theorem sliceIndex_isSome (xs : List ℚ) (z : ℤ) :
    (sliceIndex xs z).isSome = true ↔ 0 ≤ z ∧ z < (xs.length : ℤ) := by
  unfold sliceIndex
  by_cases hz : 0 ≤ z
  · rw [if_pos hz]
    constructor
    · intro h
      obtain ⟨a, ha⟩ := Option.isSome_iff_exists.mp h
      obtain ⟨hlt, -⟩ := List.getElem?_eq_some_iff.mp ha
      omega
    · rintro ⟨-, hlt⟩
      have hlt' : z.toNat < xs.length := by omega
      rw [List.getElem?_eq_getElem hlt']
      rfl
  · rw [if_neg hz]
    simp [hz]

theorem Percentile_isSome_iff (p : ℚ) (xs : List ℚ) :
    (Percentile p xs).2.isSome = true ↔
      0 ≤ ⌈p * (xs.length : ℚ)⌉ ∧
        if mathMod1 (p * (xs.length : ℚ)) = 0 then ⌈p * (xs.length : ℚ)⌉ + 1 < (xs.length : ℤ)
        else ⌈p * (xs.length : ℚ)⌉ < (xs.length : ℤ) := by
  rw [Percentile_snd]
  by_cases hm : mathMod1 (p * (xs.length : ℚ)) = 0
  · rw [if_pos hm, if_pos hm]
    have hbind : ∀ (o1 o2 : Option ℚ),
        (o1.bind fun a => o2.map fun b => (a + b) / 2).isSome = true ↔
          o1.isSome = true ∧ o2.isSome = true := by
      intro o1 o2
      cases o1 <;> cases o2 <;> simp
    rw [hbind, sliceIndex_isSome, sliceIndex_isSome, sortFloat64s_length]
    unfold mathCeil
    constructor
    · rintro ⟨⟨h0, -⟩, -, h1⟩
      exact ⟨h0, h1⟩
    · rintro ⟨h0, h1⟩
      exact ⟨⟨h0, by omega⟩, by omega, h1⟩
  · rw [if_neg hm, if_neg hm, sliceIndex_isSome, sortFloat64s_length]
    rfl

/-- C16 (as stated, refuted): on the non-empty list `[5]`, `Percentile 0` takes the
exact-integer branch with index `0`, reads position `1` of a slice of length `1`
and panics, so it is not defined. -/
theorem Percentile_zero_singleton :
    (Percentile 0 [5]).2 = none ∧ sliceIndex (sortFloat64s [5]) (mathCeil (0 * 1) + 1) = none := by
  decide!

/-- C16 (amended): for every `xs` with at least two elements, `Percentile 0 xs`
returns a value, the average of the first two elements `a` and `b` of `xs` sorted
ascending, that is of the smallest and the second-smallest element. -/
theorem Percentile_zero (xs : List ℚ) (h : 2 ≤ xs.length) :
    ∃ a b rest, (a :: b :: rest).Perm xs ∧ (a :: b :: rest).Sorted (· ≤ ·) ∧
      (Percentile 0 xs).2 = some ((a + b) / 2) := by
  have hlen := sortFloat64s_length xs
  have hperm := sortFloat64s_perm xs
  have hsorted := sortFloat64s_sorted xs
  have hsnd := Percentile_snd 0 xs
  match hs : sortFloat64s xs with
  | [] => rw [hs] at hlen; simp at hlen; omega
  | [_] => rw [hs] at hlen; simp at hlen; omega
  | a :: b :: rest =>
    rw [hs] at hperm hsorted hsnd
    refine ⟨a, b, rest, hperm, hsorted, ?_⟩
    rw [hsnd]
    simp [mathMod1, mathTrunc, mathCeil, sliceIndex]

theorem Percentile_zero_witness :
    ∃ a b rest, (a :: b :: rest).Perm [7, 3, 5] ∧ (a :: b :: rest).Sorted (· ≤ ·) ∧
      (Percentile 0 [7, 3, 5]).2 = some ((a + b) / 2) :=
  Percentile_zero [7, 3, 5] (by decide)

theorem Percentile_p95_isSome (xs : List ℚ) :
    (Percentile (19 / 20) xs).2.isSome = true ↔ 21 ≤ xs.length := by
  rw [Percentile_isSome_iff]
  have hn : (0 : ℚ) ≤ (xs.length : ℚ) := Nat.cast_nonneg _
  have h0 : 0 ≤ ⌈(19 / 20 : ℚ) * (xs.length : ℚ)⌉ :=
    Int.ceil_nonneg (by positivity)
  by_cases hm : mathMod1 ((19 / 20 : ℚ) * (xs.length : ℚ)) = 0
  · rw [if_pos hm]
    obtain ⟨z, hz⟩ := (mathMod1_eq_zero_iff _).mp hm
    have hz' : (20 : ℤ) * z = 19 * (xs.length : ℤ) := by
      have : (20 : ℚ) * (z : ℚ) = 19 * (xs.length : ℚ) := by rw [hz]; ring
      exact_mod_cast this
    rw [← hz, Int.ceil_intCast]
    constructor
    · rintro ⟨-, h1⟩
      omega
    · intro h
      exact ⟨by omega, by omega⟩
  · rw [if_neg hm]
    have hne : xs.length ≠ 20 := by
      intro h20
      apply hm
      rw [h20]
      exact (mathMod1_eq_zero_iff _).mpr ⟨19, by norm_num⟩
    constructor
    · rintro ⟨-, h1⟩
      have h2 : ⌈(19 / 20 : ℚ) * (xs.length : ℚ)⌉ ≤ (xs.length : ℤ) - 1 := by omega
      have h3 := Int.ceil_le.mp h2
      push_cast at h3
      have h4 : (20 : ℚ) ≤ (xs.length : ℚ) := by linarith
      have h5 : 20 ≤ xs.length := by exact_mod_cast h4
      omega
    · intro h
      refine ⟨h0, ?_⟩
      have h4 : (21 : ℚ) ≤ (xs.length : ℚ) := by exact_mod_cast h
      have h2 : ⌈(19 / 20 : ℚ) * (xs.length : ℚ)⌉ ≤ (xs.length : ℤ) - 1 :=
        Int.ceil_le.mpr (by push_cast; linarith)
      omega

/-- C18: with `p = 19/20`, `Percentile` returns a value exactly when the slice has
at least 21 elements; for every shorter slice it panics.  Hence `Stop` panics, in
every iteration order, whenever some key of `requestRate` holds fewer than 21
duration observations. -/
theorem Percentile_p95_needs_21 :
    (∀ xs : List ℚ, (Percentile (19 / 20) xs).2.isSome = true ↔ 21 ≤ xs.length) ∧
      (∀ xs : List ℚ, xs.length ≤ 20 → (Percentile (19 / 20) xs).2 = none) ∧
      ∀ (order : List Int) (g : Globals), order.Perm (mapKeys g.requestRate) →
        (∃ k ∈ mapKeys g.requestRate, (mapGet [] g.requestDuration k).length < 21) →
          ∃ g1, Stop order g = StopOutcome.panic g1 := by
  have hnone : ∀ xs : List ℚ, xs.length ≤ 20 → (Percentile (19 / 20) xs).2 = none := by
    intro xs hlen
    cases hv : (Percentile (19 / 20) xs).2 with
    | none => rfl
    | some v =>
      have := (Percentile_p95_isSome xs).mp (by rw [hv]; rfl)
      omega
  refine ⟨Percentile_p95_isSome, hnone, fun order g horder h => ?_⟩
  obtain ⟨k, hk, hlen⟩ := h
  exact Stop_panic_of_bucket order g ⟨k, horder.mem_iff.mpr hk, hnone _ (by omega)⟩

theorem Percentile_p95_needs_21_witness :
    ((Percentile (19 / 20) durations21).2.isSome = true ↔ 21 ≤ durations21.length) ∧
      (Percentile (19 / 20) (durations21.drop 1)).2 = none ∧
      ∃ g1, Stop [1000, 1001] scenarioState = StopOutcome.panic g1 :=
  ⟨Percentile_p95_needs_21.1 durations21,
    Percentile_p95_needs_21.2.1 (durations21.drop 1) (by decide),
    Percentile_p95_needs_21.2.2 [1000, 1001] scenarioState (by decide)
      ⟨1000, by decide, by decide⟩⟩

/-- C19: `Percentile` is monotone in `p`: when `p ≤ q` and both calls return a
value, the value for `p` is at most the value for `q`, also when one or both ranks
are exact integers; and a returned value lies above every lower bound and below
every upper bound of `xs`, so between its minimum and its maximum. -/
theorem Percentile_mono (xs : List ℚ) (p q vp vq : ℚ) (hpq : p ≤ q)
    (hp : (Percentile p xs).2 = some vp) (hq : (Percentile q xs).2 = some vq) :
    vp ≤ vq ∧
      ∀ lo hi : ℚ, (∀ x ∈ xs, lo ≤ x) → (∀ x ∈ xs, x ≤ hi) → lo ≤ vp ∧ vp ≤ hi := by
  have hs := sortFloat64s_sorted xs
  have hrank : p * (xs.length : ℚ) ≤ q * (xs.length : ℚ) :=
    mul_le_mul_of_nonneg_right hpq (Nat.cast_nonneg _)
  obtain ⟨i, hi, hcase⟩ := Percentile_eq_some p xs vp hp
  constructor
  · obtain ⟨j, hj, hcase'⟩ := Percentile_eq_some q xs vq hq
    rcases hcase with ⟨⟨z, hz⟩, a, b, ha, hb, rfl⟩ | ⟨hnz, ha⟩
    · have hab := sorted_getElem?_le _ hs i (i + 1) a b (Nat.le_succ i) ha hb
      have hiz : (i : ℤ) = z := by rw [hi, ← hz, Int.ceil_intCast]
      rcases hcase' with ⟨⟨z', hz'⟩, a', b', ha', hb', rfl⟩ | ⟨hnz', ha'⟩
      · have hab' := sorted_getElem?_le _ hs j (j + 1) a' b' (Nat.le_succ j) ha' hb'
        have hjz : (j : ℤ) = z' := by rw [hj, ← hz', Int.ceil_intCast]
        have hzz : z ≤ z' := by
          have : (z : ℚ) ≤ (z' : ℚ) := by rw [hz, hz']; exact hrank
          exact_mod_cast this
        rcases Nat.lt_or_ge i j with hlt | hge
        · have := sorted_getElem?_le _ hs (i + 1) j b a' hlt hb ha'
          linarith
        · have hij : i = j := by omega
          subst hij
          rw [ha] at ha'
          rw [hb] at hb'
          cases ha'
          cases hb'
          exact le_refl _
      · have hlt : (z : ℚ) < q * (xs.length : ℚ) := by
          rcases lt_or_eq_of_le (hz ▸ hrank) with h | h
          · exact h
          · exact absurd ⟨z, h⟩ hnz'
        have hzj : z < (j : ℤ) := by rw [hj]; exact Int.lt_ceil.mpr hlt
        have hij : i + 1 ≤ j := by omega
        have := sorted_getElem?_le _ hs (i + 1) j b vq hij hb ha'
        linarith
    · rcases hcase' with ⟨⟨z', hz'⟩, a', b', ha', hb', rfl⟩ | ⟨hnz', ha'⟩
      · have hab' := sorted_getElem?_le _ hs j (j + 1) a' b' (Nat.le_succ j) ha' hb'
        have hjz : (j : ℤ) = z' := by rw [hj, ← hz', Int.ceil_intCast]
        have hiz : (i : ℤ) ≤ z' := by
          rw [hi]
          exact Int.ceil_le.mpr (by rw [hz']; exact hrank)
        have hij : i ≤ j := by omega
        have := sorted_getElem?_le _ hs i j vp a' hij ha ha'
        linarith
      · have hij : (i : ℤ) ≤ (j : ℤ) := by
          rw [hi, hj]
          exact Int.ceil_le_ceil hrank
        exact sorted_getElem?_le _ hs i j vp vq (by omega) ha ha'
  · intro lo hi' hlo hhi
    rcases hcase with ⟨-, a, b, ha, hb, rfl⟩ | ⟨-, ha⟩
    · have ha' := mem_of_getElem?_sortFloat64s xs _ _ ha
      have hb' := mem_of_getElem?_sortFloat64s xs _ _ hb
      have := hlo a ha'
      have := hlo b hb'
      have := hhi a ha'
      have := hhi b hb'
      constructor <;> linarith
    · have ha' := mem_of_getElem?_sortFloat64s xs _ _ ha
      exact ⟨hlo _ ha', hhi _ ha'⟩

theorem Percentile_mono_witness :
    (3 : ℚ) ≤ 7 / 2 ∧
      ∀ lo hi : ℚ, (∀ x ∈ ([4, 3, 2, 1] : List ℚ), lo ≤ x) →
        (∀ x ∈ ([4, 3, 2, 1] : List ℚ), x ≤ hi) → lo ≤ 3 ∧ 3 ≤ hi :=
  Percentile_mono [4, 3, 2, 1] (1 / 3) (1 / 2) 3 (7 / 2) (by norm_num) (by decide!)
    (by decide!)

/-! ## `AggregateSamples`: effect of one batch -/

theorem mapHas_mapSet {V : Type} (m : GoMap V) (k k' : Int) (v : V) :
    mapHas (mapSet m k v) k' = (decide (k = k') || mapHas m k') := by
  induction m with
  | nil => simp [mapSet, mapHas, eq_comm]
  | cons e rest ih =>
    obtain ⟨k0, w⟩ := e
    simp only [mapHas, Bool.decide_eq_true] at ih
    by_cases h0 : k0 = k
    · subst h0
      simp only [mapSet, if_true, mapHas, List.map_cons, List.mem_cons]
      by_cases h1 : k0 = k' <;> simp [h1, eq_comm]
    · simp only [mapSet, if_neg h0, mapHas, List.map_cons, List.mem_cons]
      have ih' := ih
      simp only [mapHas] at ih'
      by_cases h1 : k = k'
      · subst h1
        have : k ∈ List.map Prod.fst (mapSet rest k v) := by
          have := ih'
          simp only [decide_True, Bool.true_or, decide_eq_true_eq] at this
          exact this
        simp [this]
      · have hiff : k' ∈ List.map Prod.fst (mapSet rest k v) ↔ k' ∈ List.map Prod.fst rest := by
          have := ih'
          simp only [h1, decide_False, Bool.false_or, decide_eq_decide] at this
          exact this
        simp only [h1, decide_False, Bool.false_or, decide_eq_decide]
        rw [hiff]

/-- The effect of the loop of `AggregateSamples` with batch key `t` on the four
aggregation variables. -/
theorem foldl_aggregateSample (t : Int) (samples : List Sample) (g : Globals) :
    mapGet 0 (samples.foldl (aggregateSample t) g).requestRate t =
        mapGet 0 g.requestRate t + (valuesOf "http_reqs" samples).sum ∧
      mapGet 0 (samples.foldl (aggregateSample t) g).errorRate t =
        mapGet 0 g.errorRate t + (valuesOf "http_req_failed" samples).sum ∧
      mapGet [] (samples.foldl (aggregateSample t) g).requestDuration t =
        mapGet [] g.requestDuration t ++ valuesOf "http_req_duration" samples ∧
      (samples.foldl (aggregateSample t) g).flattenRequestDuration =
        g.flattenRequestDuration ++ valuesOf "http_req_duration" samples ∧
      (samples.foldl (aggregateSample t) g).loadTestResult = g.loadTestResult := by
  induction samples generalizing g with
  | nil => simp [valuesOf]
  | cons s rest ih =>
    obtain ⟨h1, h2, h3, h4, h5⟩ := ih (aggregateSample t g s)
    simp only [List.foldl_cons]
    rw [h1, h2, h3, h4, h5]
    unfold aggregateSample valuesOf
    by_cases hr : s.Name = "http_reqs" <;> by_cases hf : s.Name = "http_req_failed" <;>
      by_cases hd : s.Name = "http_req_duration" <;>
      simp [hr, hf, hd, List.filter_cons, mapGet_mapSet, add_assoc]

theorem foldl_aggregateSample_other (t : Int) (samples : List Sample) (g : Globals) (k : Int)
    (hk : k ≠ t) :
    (∀ z, mapGet z (samples.foldl (aggregateSample t) g).requestRate k =
        mapGet z g.requestRate k) ∧
      (∀ z, mapGet z (samples.foldl (aggregateSample t) g).errorRate k =
        mapGet z g.errorRate k) ∧
      (∀ z, mapGet z (samples.foldl (aggregateSample t) g).requestDuration k =
        mapGet z g.requestDuration k) ∧
      mapHas (samples.foldl (aggregateSample t) g).requestRate k = mapHas g.requestRate k ∧
      mapHas (samples.foldl (aggregateSample t) g).errorRate k = mapHas g.errorRate k ∧
      mapHas (samples.foldl (aggregateSample t) g).requestDuration k =
        mapHas g.requestDuration k := by
  induction samples generalizing g with
  | nil => simp
  | cons s rest ih =>
    obtain ⟨h1, h2, h3, h4, h5, h6⟩ := ih (aggregateSample t g s)
    simp only [List.foldl_cons]
    have hk' : ¬ t = k := fun h => hk h.symm
    refine ⟨fun z => ?_, fun z => ?_, fun z => ?_, ?_, ?_, ?_⟩
    · rw [h1]
      unfold aggregateSample
      by_cases hr : s.Name = "http_reqs" <;> by_cases hf : s.Name = "http_req_failed" <;>
        by_cases hd : s.Name = "http_req_duration" <;>
        simp [hr, hf, hd, mapGet_mapSet, hk']
    · rw [h2]
      unfold aggregateSample
      by_cases hr : s.Name = "http_reqs" <;> by_cases hf : s.Name = "http_req_failed" <;>
        by_cases hd : s.Name = "http_req_duration" <;>
        simp [hr, hf, hd, mapGet_mapSet, hk']
    · rw [h3]
      unfold aggregateSample
      by_cases hr : s.Name = "http_reqs" <;> by_cases hf : s.Name = "http_req_failed" <;>
        by_cases hd : s.Name = "http_req_duration" <;>
        simp [hr, hf, hd, mapGet_mapSet, hk']
    · rw [h4]
      unfold aggregateSample
      by_cases hr : s.Name = "http_reqs" <;> by_cases hf : s.Name = "http_req_failed" <;>
        by_cases hd : s.Name = "http_req_duration" <;>
        simp [hr, hf, hd, mapHas_mapSet, hk']
    · rw [h5]
      unfold aggregateSample
      by_cases hr : s.Name = "http_reqs" <;> by_cases hf : s.Name = "http_req_failed" <;>
        by_cases hd : s.Name = "http_req_duration" <;>
        simp [hr, hf, hd, mapHas_mapSet, hk']
    · rw [h6]
      unfold aggregateSample
      by_cases hr : s.Name = "http_reqs" <;> by_cases hf : s.Name = "http_req_failed" <;>
        by_cases hd : s.Name = "http_req_duration" <;>
        simp [hr, hf, hd, mapHas_mapSet, hk']

theorem foldl_aggregateSample_has (t : Int) (samples : List Sample) (g : Globals) :
    mapHas (samples.foldl (aggregateSample t) g).requestRate t =
        (mapHas g.requestRate t || samples.any fun s => decide (s.Name = "http_reqs")) ∧
      mapHas (samples.foldl (aggregateSample t) g).errorRate t =
        (mapHas g.errorRate t || samples.any fun s => decide (s.Name = "http_req_failed")) ∧
      mapHas (samples.foldl (aggregateSample t) g).requestDuration t =
        (mapHas g.requestDuration t ||
          samples.any fun s => decide (s.Name = "http_req_duration")) := by
  induction samples generalizing g with
  | nil => simp
  | cons s rest ih =>
    obtain ⟨h1, h2, h3⟩ := ih (aggregateSample t g s)
    simp only [List.foldl_cons]
    rw [h1, h2, h3]
    unfold aggregateSample
    by_cases hr : s.Name = "http_reqs" <;> by_cases hf : s.Name = "http_req_failed" <;>
      by_cases hd : s.Name = "http_req_duration" <;>
      simp [hr, hf, hd, mapHas_mapSet]

/-- C11: a non-empty batch is aggregated under the timestamp `t` of its first
sample, whatever the timestamps of the other samples: `AggregateSamples` returns
normally, `requestRate[t]` grows by the sum of the batch's `http_reqs` values,
`errorRate[t]` by the sum of its `http_req_failed` values, its
`http_req_duration` values are appended in batch order to `requestDuration[t]` and
to `flattenRequestDuration`, and at every key other than `t` the three maps keep
their entries (value and presence). -/
theorem AggregateSamples_first_timestamp (first : Sample) (rest : List Sample) (g : Globals) :
    ∃ g1, AggregateSamples (first :: rest) g = Outcome.done g1 ∧
      mapGet 0 g1.requestRate first.Time =
        mapGet 0 g.requestRate first.Time + (valuesOf "http_reqs" (first :: rest)).sum ∧
      mapGet 0 g1.errorRate first.Time =
        mapGet 0 g.errorRate first.Time + (valuesOf "http_req_failed" (first :: rest)).sum ∧
      mapGet [] g1.requestDuration first.Time =
        mapGet [] g.requestDuration first.Time ++
          valuesOf "http_req_duration" (first :: rest) ∧
      g1.flattenRequestDuration =
        g.flattenRequestDuration ++ valuesOf "http_req_duration" (first :: rest) ∧
      ∀ k, k ≠ first.Time →
        mapGet 0 g1.requestRate k = mapGet 0 g.requestRate k ∧
          mapGet 0 g1.errorRate k = mapGet 0 g.errorRate k ∧
          mapGet [] g1.requestDuration k = mapGet [] g.requestDuration k ∧
          mapHas g1.requestRate k = mapHas g.requestRate k ∧
          mapHas g1.errorRate k = mapHas g.errorRate k ∧
          mapHas g1.requestDuration k = mapHas g.requestDuration k := by
  obtain ⟨h1, h2, h3, h4, -⟩ := foldl_aggregateSample first.Time (first :: rest) g
  refine ⟨_, rfl, h1, h2, h3, h4, fun k hk => ?_⟩
  obtain ⟨o1, o2, o3, o4, o5, o6⟩ :=
    foldl_aggregateSample_other first.Time (first :: rest) g k hk
  exact ⟨o1 0, o2 0, o3 [], o4, o5, o6⟩

/-- The batch `[http_reqs 1 at 1000, http_reqs 2 at 2000, http_req_duration 7 at
3000]`. -/
theorem AggregateSamples_first_timestamp_witness :
    ∃ g1, AggregateSamples
        [{ Time := 1000, Name := "http_reqs", Value := 1 },
         { Time := 2000, Name := "http_reqs", Value := 2 },
         { Time := 3000, Name := "http_req_duration", Value := 7 }] scenarioState =
        Outcome.done g1 ∧
      mapGet 0 g1.requestRate 1000 = 13 ∧ mapGet [] g1.requestDuration 1000 = [100, 200, 300, 7] ∧
      mapHas g1.requestRate 2000 = false ∧ mapHas g1.requestDuration 3000 = false ∧
      mapGet 0 g1.requestRate 1001 = 5 := by
  obtain ⟨g1, hrun, h1, -, h3, -, hother⟩ :=
    AggregateSamples_first_timestamp { Time := 1000, Name := "http_reqs", Value := 1 }
      [{ Time := 2000, Name := "http_reqs", Value := 2 },
       { Time := 3000, Name := "http_req_duration", Value := 7 }] scenarioState
  refine ⟨g1, hrun, ?_, ?_, ?_, ?_, ?_⟩
  · rw [h1]; decide!
  · rw [h3]; decide!
  · rw [(hother 2000 (by decide)).2.2.2.1]; decide!
  · rw [(hother 3000 (by decide)).2.2.2.2.2]; decide!
  · rw [(hother 1001 (by decide)).1]; decide!

theorem aggregateSample_other (t : Int) (g : Globals) (s : Sample)
    (h : s.Name ≠ "http_reqs" ∧ s.Name ≠ "http_req_failed" ∧ s.Name ≠ "http_req_duration") :
    aggregateSample t g s = g := by
  unfold aggregateSample
  simp [h.1, h.2.1, h.2.2]

/-- C12: a non-empty batch whose samples all carry a metric name other than
`http_reqs`, `http_req_failed` and `http_req_duration` leaves the whole state as
it was: `AggregateSamples` returns normally with the state it was called in. -/
theorem AggregateSamples_other_metrics (samples : List Sample) (g : Globals)
    (hne : samples ≠ [])
    (hother : ∀ s ∈ samples,
      s.Name ≠ "http_reqs" ∧ s.Name ≠ "http_req_failed" ∧ s.Name ≠ "http_req_duration") :
    AggregateSamples samples g = Outcome.done g := by
  have hfold : ∀ (t : Int) (l : List Sample), (∀ s ∈ l,
      s.Name ≠ "http_reqs" ∧ s.Name ≠ "http_req_failed" ∧ s.Name ≠ "http_req_duration") →
      l.foldl (aggregateSample t) g = g := by
    intro t l
    induction l with
    | nil => intro _; rfl
    | cons s rest ih =>
      intro hl
      rw [List.foldl_cons, aggregateSample_other t g s (hl s (List.mem_cons_self _ _))]
      exact ih fun s' hs' => hl s' (List.mem_cons_of_mem _ hs')
  match samples, hne, hother with
  | first :: rest, _, hall =>
    simp only [AggregateSamples]
    rw [hfold first.Time (first :: rest) hall]

theorem AggregateSamples_other_metrics_witness :
    AggregateSamples
        [{ Time := 1002, Name := "vus", Value := 4 },
         { Time := 1002, Name := "http_req_waiting", Value := 12 }] scenarioState =
      Outcome.done scenarioState :=
  AggregateSamples_other_metrics _ scenarioState (by simp) (by decide)

/-! ## Keys of a map and the concatenation of its buckets -/

theorem mem_map_fst_iff_mapHas {V : Type} (m : GoMap V) (k : Int) :
    k ∈ m.map Prod.fst ↔ mapHas m k = true := by
  simp [mapHas]

theorem mem_mapKeys {V : Type} (m : GoMap V) (k : Int) :
    k ∈ mapKeys m ↔ mapHas m k = true := by
  unfold mapKeys
  rw [List.mem_dedup, mem_map_fst_iff_mapHas]

theorem nodup_mapKeys {V : Type} (m : GoMap V) : (mapKeys m).Nodup :=
  List.nodup_dedup _

theorem map_fst_mapSet {V : Type} (m : GoMap V) (k : Int) (v : V) :
    (mapSet m k v).map Prod.fst =
      if mapHas m k = true then m.map Prod.fst else m.map Prod.fst ++ [k] := by
  induction m with
  | nil => simp [mapSet, mapHas]
  | cons e rest ih =>
    obtain ⟨k0, w⟩ := e
    by_cases h0 : k0 = k
    · subst h0
      simp [mapSet, mapHas]
    · have hne : ¬ k = k0 := fun h => h0 h.symm
      simp only [mapSet, if_neg h0, List.map_cons, ih]
      by_cases hh : mapHas rest k = true
      · have : mapHas ((k0, w) :: rest) k = true := by
          simp only [mapHas, List.map_cons, List.mem_cons, decide_eq_true_eq] at hh ⊢
          exact Or.inr hh
        simp [hh, this]
      · have : ¬ mapHas ((k0, w) :: rest) k = true := by
          simp only [mapHas, List.map_cons, List.mem_cons, decide_eq_true_eq] at hh ⊢
          rintro (h | h)
          · exact hne h
          · exact hh h
        simp [hh, this]

theorem dedup_append_singleton (l : List Int) (k : Int) (hk : k ∉ l) :
    (l ++ [k]).dedup = l.dedup ++ [k] := by
  induction l with
  | nil => simp
  | cons a rest ih =>
    have hak : a ≠ k := fun h => hk (h ▸ List.mem_cons_self _ _)
    have hk' : k ∉ rest := fun h => hk (List.mem_cons_of_mem _ h)
    by_cases ha : a ∈ rest
    · have ha' : a ∈ rest ++ [k] := List.mem_append_left _ ha
      rw [List.cons_append, List.dedup_cons_of_mem ha', List.dedup_cons_of_mem ha, ih hk']
    · have ha' : a ∉ rest ++ [k] := by
        simp [ha, hak]
      rw [List.cons_append, List.dedup_cons_of_not_mem ha', List.dedup_cons_of_not_mem ha,
        ih hk', List.cons_append]

theorem mapKeys_mapSet {V : Type} (m : GoMap V) (k : Int) (v : V) :
    mapKeys (mapSet m k v) = if mapHas m k = true then mapKeys m else mapKeys m ++ [k] := by
  unfold mapKeys
  rw [map_fst_mapSet]
  by_cases hh : mapHas m k = true
  · simp [hh]
  · rw [if_neg hh, if_neg hh]
    exact dedup_append_singleton _ _ (fun h => hh ((mem_map_fst_iff_mapHas m k).mp h))

theorem flatMap_update_perm (l : List Int) (f : Int → List ℚ) (t : Int) (extra : List ℚ)
    (hnd : l.Nodup) (ht : t ∈ l) :
    (l.flatMap fun k => if t = k then f t ++ extra else f k).Perm (l.flatMap f ++ extra) := by
  induction l with
  | nil => exact absurd ht (List.not_mem_nil t)
  | cons a rest ih =>
    obtain ⟨ha, hrest⟩ := List.nodup_cons.mp hnd
    simp only [List.flatMap_cons]
    by_cases hta : t = a
    · subst hta
      have hsame : (rest.flatMap fun k => if t = k then f t ++ extra else f k) =
          rest.flatMap f := by
        apply List.flatMap_congr
        intro x hx
        have : ¬ t = x := fun h => ha (h ▸ hx)
        simp [this]
      rw [hsame, if_pos rfl, List.append_assoc, List.append_assoc]
      exact List.Perm.append_left _ List.perm_append_comm
    · have ht' : t ∈ rest := by
        rcases List.mem_cons.mp ht with h | h
        · exact absurd h hta
        · exact h
      rw [if_neg hta, List.append_assoc]
      exact List.Perm.append_left _ (ih hrest ht')

theorem bucketDurations_mapSet_append (m : GoMap (List ℚ)) (t : Int) (v : ℚ) :
    (bucketDurations (mapSet m t (mapGet [] m t ++ [v]))).Perm (bucketDurations m ++ [v]) := by
  unfold bucketDurations
  have hfun : (fun k => mapGet [] (mapSet m t (mapGet [] m t ++ [v])) k) =
      fun k => if t = k then mapGet [] m t ++ [v] else mapGet [] m k := by
    funext k
    exact mapGet_mapSet [] m t k _
  rw [hfun, mapKeys_mapSet]
  by_cases hh : mapHas m t = true
  · rw [if_pos hh]
    exact flatMap_update_perm _ _ t [v] (nodup_mapKeys m) ((mem_mapKeys m t).mpr hh)
  · rw [if_neg hh, List.flatMap_append, List.flatMap_singleton, if_pos rfl]
    have hnot : t ∉ mapKeys m := fun h => hh ((mem_mapKeys m t).mp h)
    have hsame : ((mapKeys m).flatMap fun k => if t = k then mapGet [] m t ++ [v]
        else mapGet [] m k) = (mapKeys m).flatMap fun k => mapGet [] m k := by
      apply List.flatMap_congr
      intro x hx
      have : ¬ t = x := fun h => hnot (h ▸ hx)
      simp [this]
    rw [hsame, mapGet_of_not_mapHas [] m t (by simpa using hh)]
    simp

theorem mapKeys_mapSortInPlace (m : GoMap (List ℚ)) (k : Int) (sorted : List ℚ) :
    mapKeys (mapSortInPlace m k sorted) = mapKeys m := by
  unfold mapSortInPlace
  by_cases hh : mapHas m k = true
  · rw [if_pos hh, mapKeys_mapSet, if_pos hh]
  · rw [if_neg hh]

theorem bucketDurations_mapSortInPlace (m : GoMap (List ℚ)) (k : Int) :
    (bucketDurations (mapSortInPlace m k (sortFloat64s (mapGet [] m k)))).Perm
      (bucketDurations m) := by
  unfold bucketDurations
  rw [mapKeys_mapSortInPlace]
  exact List.Perm.flatMap_left _ fun a _ => mapGet_mapSortInPlace m k a

/-! ## The flat duration log and the buckets -/

theorem aggregateSample_flat (t : Int) (g : Globals) (s : Sample)
    (h : g.flattenRequestDuration.Perm (bucketDurations g.requestDuration)) :
    (aggregateSample t g s).flattenRequestDuration.Perm
      (bucketDurations (aggregateSample t g s).requestDuration) := by
  unfold aggregateSample
  by_cases hd : s.Name = "http_req_duration"
  · simp only [hd, if_true]
    split <;> split <;>
      exact (List.Perm.append_right _ h).trans (bucketDurations_mapSet_append _ _ _).symm
  · simp only [hd, if_false]
    split <;> split <;> exact h

theorem foldl_aggregateSample_flat (t : Int) (samples : List Sample) (g : Globals)
    (h : g.flattenRequestDuration.Perm (bucketDurations g.requestDuration)) :
    (samples.foldl (aggregateSample t) g).flattenRequestDuration.Perm
      (bucketDurations (samples.foldl (aggregateSample t) g).requestDuration) := by
  induction samples generalizing g with
  | nil => exact h
  | cons s rest ih => exact ih _ (aggregateSample_flat t g s h)

theorem AggregateSamples_cons (first : Sample) (rest : List Sample) (g : Globals) :
    AggregateSamples (first :: rest) g =
      Outcome.done ((first :: rest).foldl (aggregateSample first.Time) g) :=
  rfl

theorem AddMetricSamples_done (batches : List (List Sample)) (g : Globals)
    (hne : ∀ b ∈ batches, b ≠ []) : ∃ g1, AddMetricSamples batches g = Outcome.done g1 := by
  induction batches generalizing g with
  | nil => exact ⟨g, rfl⟩
  | cons b rest ih =>
    match b, hne b (List.mem_cons_self _ _) with
    | first :: more, _ =>
      obtain ⟨g1, h1⟩ := ih ((first :: more).foldl (aggregateSample first.Time) g)
        fun b' hb' => hne b' (List.mem_cons_of_mem _ hb')
      exact ⟨g1, by simp only [AddMetricSamples, AggregateSamples_cons, h1]⟩

theorem AddMetricSamples_cons_done (first : Sample) (more : List Sample)
    (rest : List (List Sample)) (g : Globals) :
    AddMetricSamples ((first :: more) :: rest) g =
      AddMetricSamples rest ((first :: more).foldl (aggregateSample first.Time) g) := by
  simp only [AddMetricSamples, AggregateSamples_cons]

theorem AddMetricSamples_flat (batches : List (List Sample)) (g g1 : Globals)
    (hrun : AddMetricSamples batches g = Outcome.done g1)
    (h : g.flattenRequestDuration.Perm (bucketDurations g.requestDuration)) :
    g1.flattenRequestDuration.Perm (bucketDurations g1.requestDuration) := by
  induction batches generalizing g with
  | nil =>
    have hg : g = g1 := Outcome.done.inj hrun
    subst hg
    exact h
  | cons b rest ih =>
    match b with
    | [] => simp [AddMetricSamples, AggregateSamples] at hrun
    | first :: more =>
      rw [AddMetricSamples_cons_done] at hrun
      exact ih _ hrun (foldl_aggregateSample_flat _ _ g h)

theorem stopIteration_state (key : Int) (g : Globals) (l : StopLocals) :
    (stopIteration key g l).state.1.requestDuration =
        mapSortInPlace g.requestDuration key (sortFloat64s (mapGet [] g.requestDuration key)) ∧
      (stopIteration key g l).state.1.flattenRequestDuration = g.flattenRequestDuration ∧
      (stopIteration key g l).state.1.requestRate = g.requestRate ∧
      (stopIteration key g l).state.1.errorRate = g.errorRate := by
  unfold stopIteration
  simp only [Percentile_fst]
  cases (Percentile (19 / 20) (mapGet [] g.requestDuration key)).2 <;>
    exact ⟨rfl, rfl, rfl, rfl⟩

theorem stopLoop_flat (keys : List Int) (g : Globals) (l : StopLocals) :
    (bucketDurations (stopLoop keys g l).state.1.requestDuration).Perm
        (bucketDurations g.requestDuration) ∧
      (stopLoop keys g l).state.1.flattenRequestDuration = g.flattenRequestDuration := by
  induction keys generalizing g l with
  | nil => exact ⟨List.Perm.refl _, rfl⟩
  | cons key rest ih =>
    obtain ⟨hrd, hflat, -, -⟩ := stopIteration_state key g l
    simp only [stopLoop]
    cases hstep : stopIteration key g l with
    | panic s =>
      rw [hstep] at hrd hflat
      simp only [Outcome.state] at hrd hflat ⊢
      rw [hrd, hflat]
      exact ⟨bucketDurations_mapSortInPlace _ _, rfl⟩
    | done s =>
      obtain ⟨g1, l1⟩ := s
      rw [hstep] at hrd hflat
      simp only [Outcome.state] at hrd hflat
      obtain ⟨h1, h2⟩ := ih g1 l1
      refine ⟨h1.trans ?_, h2.trans hflat⟩
      rw [hrd]
      exact bucketDurations_mapSortInPlace _ _

theorem Stop_flat (order : List Int) (g : Globals) :
    (bucketDurations (Stop order g).state.requestDuration).Perm
        (bucketDurations g.requestDuration) ∧
      (Stop order g).state.flattenRequestDuration.Perm g.flattenRequestDuration := by
  obtain ⟨h1, h2⟩ := stopLoop_flat order g initialLocals
  unfold Stop
  cases hloop : stopLoop order g initialLocals with
  | panic s =>
    obtain ⟨g1, l1⟩ := s
    rw [hloop] at h1 h2
    simp only [Outcome.state] at h1 h2
    simp only [StopOutcome.state]
    exact ⟨h1, h2 ▸ List.Perm.refl _⟩
  | done s =>
    obtain ⟨g1, l1⟩ := s
    rw [hloop] at h1 h2
    simp only [Outcome.state] at h1 h2
    simp only [Percentile_fst]
    cases (Percentile (19 / 20) g1.flattenRequestDuration).2 with
    | none =>
      simp only [StopOutcome.state]
      exact ⟨h1, h2 ▸ sortFloat64s_perm _⟩
    | some d =>
      simp only
      split <;> simp only [StopOutcome.state] <;> exact ⟨h1, h2 ▸ sortFloat64s_perm _⟩

/-- C13: after `Start` and any sequence of non-empty batches, ingestion returns
normally and `flattenRequestDuration` is a permutation of the concatenation of
`requestDuration[k]` over all keys `k`; the same holds of the state that `Stop`
leaves, in whatever order it visits the keys and however it ends. -/
theorem flatten_matches_buckets (g0 : Globals) (batches : List (List Sample))
    (hne : ∀ b ∈ batches, b ≠ []) :
    ∃ g, AddMetricSamples batches (Start g0) = Outcome.done g ∧
      g.flattenRequestDuration.Perm (bucketDurations g.requestDuration) ∧
      ∀ order : List Int,
        (Stop order g).state.flattenRequestDuration.Perm
          (bucketDurations (Stop order g).state.requestDuration) := by
  obtain ⟨g, hrun⟩ := AddMetricSamples_done batches (Start g0) hne
  have hinv : g.flattenRequestDuration.Perm (bucketDurations g.requestDuration) :=
    AddMetricSamples_flat batches (Start g0) g hrun (List.Perm.refl _)
  refine ⟨g, hrun, hinv, fun order => ?_⟩
  obtain ⟨h1, h2⟩ := Stop_flat order g
  exact (h2.trans hinv).trans h1.symm

theorem flatten_matches_buckets_witness :
    ∃ g, AddMetricSamples scenarioBatches (Start zeroGlobals) = Outcome.done g ∧
      g.flattenRequestDuration.Perm (bucketDurations g.requestDuration) ∧
      ∀ order : List Int,
        (Stop order g).state.flattenRequestDuration.Perm
          (bucketDurations (Stop order g).state.requestDuration) :=
  flatten_matches_buckets zeroGlobals scenarioBatches (by decide)

/-! ## `Stop` as a function of the aggregated data -/

theorem stopLoop_points (keys : List Int) (g : Globals) (l : StopLocals)
    (h : ∀ k ∈ keys, (Percentile (19 / 20) (mapGet [] g.requestDuration k)).2 ≠ none) :
    ∃ g1, stopLoop keys g l = Outcome.done (g1, loopLocals g keys l) ∧ SameRun g g1 ∧
      (∀ k, mapHas g1.loadTestResult.Points k =
        (decide (k ∈ keys) || mapHas g.loadTestResult.Points k)) ∧
      (∀ zero k, mapGet zero g1.loadTestResult.Points k =
        if k ∈ keys then pointOf g k else mapGet zero g.loadTestResult.Points k) := by
  induction keys generalizing g l with
  | nil => exact ⟨g, rfl, SameRun.refl g, by simp, by simp⟩
  | cons key rest ih =>
    obtain ⟨d, hd⟩ := Option.ne_none_iff_exists'.mp (h key (List.mem_cons_self _ _))
    obtain ⟨g1, hstep, hsame, hpts, -⟩ := stopIteration_done key g l d hd
    have hrest : ∀ k ∈ rest,
        (Percentile (19 / 20) (mapGet [] g1.requestDuration k)).2 ≠ none := by
      intro k hk
      rw [hsame.percentile]
      exact h k (List.mem_cons_of_mem _ hk)
    obtain ⟨g2, hloop, hsame2, hhas, hget⟩ := ih g1 (nextLocals g key l) hrest
    have hpoint : ∀ k, pointOf g1 k = pointOf g k := by
      intro k
      unfold pointOf
      rw [hsame.1, hsame.2.1, hsame.percentile]
    have hkey : pointOf g key =
        { RequestRate := mapGet 0 g.requestRate key
          ErrorRate := mapGet 0 g.errorRate key
          RequestDuration := d } := by
      unfold pointOf
      rw [hd]
      rfl
    refine ⟨g2, ?_, hsame.trans hsame2, fun k => ?_, fun zero k => ?_⟩
    · simp only [stopLoop, hstep, hloop, hsame.loopLocals]
      rfl
    · rw [hhas, hpts, mapHas_mapSet]
      by_cases hk : k ∈ rest
      · simp [hk]
      · by_cases hkk : key = k
        · simp [hkk]
        · have : ¬ k = key := fun h => hkk h.symm
          simp [hk, hkk, this]
    · rw [hget, hpts, mapGet_mapSet, hpoint, ← hkey]
      by_cases hk : k ∈ rest
      · simp [hk]
      · by_cases hkk : key = k
        · subst hkk
          simp
        · have : ¬ k = key := fun h => hkk h.symm
          simp [hk, hkk, this]

/-- The state of a call of `Stop` in which no bucket panics. -/
theorem Stop_of_buckets_points (order : List Int) (g : Globals)
    (h : ∀ k ∈ order, (Percentile (19 / 20) (mapGet [] g.requestDuration k)).2 ≠ none) :
    ∃ g1, SameRun g g1 ∧
      (∀ k, mapHas g1.loadTestResult.Points k =
        (decide (k ∈ order) || mapHas g.loadTestResult.Points k)) ∧
      (∀ zero k, mapGet zero g1.loadTestResult.Points k =
        if k ∈ order then pointOf g k else mapGet zero g.loadTestResult.Points k) ∧
      Stop order g =
        match (Percentile (19 / 20) g.flattenRequestDuration).2 with
        | none =>
          StopOutcome.panic
            { g1 with flattenRequestDuration := sortFloat64s g.flattenRequestDuration }
        | some d =>
          let g3 : Globals :=
            { g1 with
              flattenRequestDuration := sortFloat64s g.flattenRequestDuration
              loadTestResult := { g1.loadTestResult with Summary := summaryOf g order d } }
          if jsonUnsupported g3.loadTestResult then StopOutcome.marshalError g3
          else StopOutcome.written g3 := by
  obtain ⟨g1, hloop, hsame, hhas, hget⟩ := stopLoop_points order g initialLocals h
  refine ⟨g1, hsame, hhas, hget, ?_⟩
  simp only [Stop, hloop, hsame.2.2.1, Percentile_fst, summaryOf]

theorem Stop_panic_same (order : List Int) (g : Globals)
    (h : ∃ k ∈ order, (Percentile (19 / 20) (mapGet [] g.requestDuration k)).2 = none) :
    ∃ g1, Stop order g = StopOutcome.panic g1 ∧ SameRun g g1 := by
  obtain ⟨s, hloop, hsame⟩ := stopLoop_panic order g initialLocals h
  obtain ⟨g1, l1⟩ := s
  exact ⟨g1, by simp only [Stop, hloop], hsame⟩

theorem Stop_summary_eq (order : List Int) (g : Globals) :
    (Stop order g).summary? =
      if ∀ k ∈ order, (Percentile (19 / 20) (mapGet [] g.requestDuration k)).2 ≠ none then
        ((Percentile (19 / 20) g.flattenRequestDuration).2).map (summaryOf g order)
      else none := by
  by_cases hall : ∀ k ∈ order,
      (Percentile (19 / 20) (mapGet [] g.requestDuration k)).2 ≠ none
  · rw [if_pos hall]
    obtain ⟨g1, -, hstop⟩ := Stop_of_buckets order g hall
    rw [hstop]
    cases (Percentile (19 / 20) g.flattenRequestDuration).2 with
    | none => rfl
    | some d =>
      dsimp only
      split <;> rfl
  · rw [if_neg hall]
    push_neg at hall
    obtain ⟨g1, hstop⟩ := Stop_panic_of_bucket order g hall
    rw [hstop]
    rfl

theorem summaryOf_eq (g : Globals) (order : List Int) (d : ℚ) :
    summaryOf g order d =
      { TotalRequest :=
          wrapInt64 (order.map fun k => int64OfFloat (mapGet 0 g.requestRate k)).sum
        TotalSuccess :=
          wrapInt64
            (wrapInt64 (order.map fun k => int64OfFloat (mapGet 0 g.requestRate k)).sum -
              wrapInt64 (order.map fun k => int64OfFloat (mapGet 0 g.errorRate k)).sum)
        TotalError :=
          wrapInt64 (order.map fun k => int64OfFloat (mapGet 0 g.errorRate k)).sum
        RequestRatePerSecond :=
          float64Div
            ((wrapInt64 (order.map fun k => int64OfFloat (mapGet 0 g.requestRate k)).sum : ℤ) : ℚ)
            ((order.length : ℚ) - 1)
        RequestDuration := d } := by
  have h1 := summaryOf_totalRequest g order d
  have h2 := summaryOf_totalError g order d
  have h3 := summaryOf_rate g order d
  rw [h1] at h3
  have h4 : (summaryOf g order d).TotalSuccess =
      wrapInt64 ((summaryOf g order d).TotalRequest - (summaryOf g order d).TotalError) := rfl
  rw [h1, h2] at h4
  have h5 : (summaryOf g order d).RequestDuration = d := rfl
  cases hs : summaryOf g order d with
  | mk tr ts te rate rd =>
    rw [hs] at h1 h2 h3 h4 h5
    simp only at h1 h2 h3 h4 h5
    rw [h1, h2, h3, h4, h5]

theorem summaryOf_congr (g g1 : Globals) (order order1 : List Int) (d : ℚ)
    (hE : RunEquiv g g1) (hO : order1.Perm order) :
    summaryOf g1 order1 d = summaryOf g order d := by
  have hr : (order1.map fun k => int64OfFloat (mapGet 0 g1.requestRate k)).sum =
      (order.map fun k => int64OfFloat (mapGet 0 g.requestRate k)).sum := by
    have hf : (fun k => int64OfFloat (mapGet 0 g1.requestRate k)) =
        fun k => int64OfFloat (mapGet 0 g.requestRate k) := by
      funext k
      rw [hE.1]
    rw [hf]
    exact (hO.map _).sum_eq
  have he : (order1.map fun k => int64OfFloat (mapGet 0 g1.errorRate k)).sum =
      (order.map fun k => int64OfFloat (mapGet 0 g.errorRate k)).sum := by
    have hf : (fun k => int64OfFloat (mapGet 0 g1.errorRate k)) =
        fun k => int64OfFloat (mapGet 0 g.errorRate k) := by
      funext k
      rw [hE.2.1]
    rw [hf]
    exact (hO.map _).sum_eq
  rw [summaryOf_eq, summaryOf_eq, hr, he, hO.length_eq]

theorem RunEquiv.buckets {g g1 : Globals} (hE : RunEquiv g g1) {order order1 : List Int}
    (hO : order1.Perm order) :
    (∀ k ∈ order1, (Percentile (19 / 20) (mapGet [] g1.requestDuration k)).2 ≠ none) ↔
      ∀ k ∈ order, (Percentile (19 / 20) (mapGet [] g.requestDuration k)).2 ≠ none := by
  have hp : ∀ k, (Percentile (19 / 20) (mapGet [] g1.requestDuration k)).2 =
      (Percentile (19 / 20) (mapGet [] g.requestDuration k)).2 :=
    fun k => congrArg Prod.snd (Percentile_congr _ _ _ (hE.2.2.1 k))
  constructor
  · intro h k hk
    rw [← hp]
    exact h k (hO.mem_iff.mpr hk)
  · intro h k hk
    rw [hp]
    exact h k (hO.mem_iff.mp hk)

theorem Stop_summary_congr (order order1 : List Int) (g g1 : Globals)
    (hE : RunEquiv g g1) (hO : order1.Perm order) :
    (Stop order1 g1).summary? = (Stop order g).summary? := by
  rw [Stop_summary_eq, Stop_summary_eq]
  have hflat : (Percentile (19 / 20) g1.flattenRequestDuration).2 =
      (Percentile (19 / 20) g.flattenRequestDuration).2 :=
    congrArg Prod.snd (Percentile_congr _ _ _ hE.2.2.2)
  have hfun : summaryOf g1 order1 = summaryOf g order := by
    funext d
    exact summaryOf_congr g g1 order order1 d hE hO
  by_cases hall : ∀ k ∈ order,
      (Percentile (19 / 20) (mapGet [] g.requestDuration k)).2 ≠ none
  · rw [if_pos hall, if_pos ((hE.buckets hO).mpr hall), hflat, hfun]
  · rw [if_neg hall, if_neg (fun h => hall ((hE.buckets hO).mp h))]

theorem SameRun.runEquiv {g g1 : Globals} (h : SameRun g g1) : RunEquiv g g1 :=
  ⟨fun k => by rw [h.1], fun k => by rw [h.2.1], h.2.2.2, by rw [h.2.2.1]⟩

theorem Stop_state (order : List Int) (g : Globals) :
    RunEquiv g (Stop order g).state ∧ (Stop order g).state.requestRate = g.requestRate := by
  by_cases hall : ∀ k ∈ order,
      (Percentile (19 / 20) (mapGet [] g.requestDuration k)).2 ≠ none
  · obtain ⟨g1, hsame, hstop⟩ := Stop_of_buckets order g hall
    rw [hstop]
    have hE := hsame.runEquiv
    cases (Percentile (19 / 20) g.flattenRequestDuration).2 with
    | none =>
      exact ⟨⟨hE.1, hE.2.1, hE.2.2.1, sortFloat64s_perm _⟩, hsame.1⟩
    | some d =>
      dsimp only
      split <;> exact ⟨⟨hE.1, hE.2.1, hE.2.2.1, sortFloat64s_perm _⟩, hsame.1⟩
  · push_neg at hall
    obtain ⟨g1, hstop, hsame⟩ := Stop_panic_same order g hall
    rw [hstop]
    exact ⟨hsame.runEquiv, hsame.1⟩

theorem Stop_marshalError (order : List Int) (g g1 : Globals)
    (h : Stop order g = StopOutcome.marshalError g1) :
    (Stop order g).summary? = some g1.loadTestResult.Summary ∧
      jsonUnsupported g1.loadTestResult = true := by
  have hsm : (Stop order g).summary? = some g1.loadTestResult.Summary := by rw [h]; rfl
  refine ⟨hsm, ?_⟩
  rcases Stop_summary_cases order g _ hsm with ⟨a, ha, -, hj⟩ | ⟨a, ha, -⟩
  · rw [h] at ha
    rw [StopOutcome.marshalError.inj ha]
    exact hj
  · rw [h] at ha
    exact absurd ha (by simp)

theorem jsonUnsupported_congr (r r1 : LoadTestResult) (h : r1.Summary = r.Summary) :
    jsonUnsupported r1 = jsonUnsupported r := by
  unfold jsonUnsupported
  rw [h]

theorem StopAndWrite_globals (order : List Int) (writeOk : Bool) (p : Process) :
    (StopAndWrite order writeOk p).1.globals = (Stop order p.globals).state := by
  unfold StopAndWrite
  cases Stop order p.globals <;> rfl

theorem StopAndWrite_closes (order : List Int) (writeOk : Bool) (p : Process) (a : Globals)
    (h : Stop order p.globals = StopOutcome.written a) :
    (StopAndWrite order writeOk p).1.fileOpen = false := by
  unfold StopAndWrite
  rw [h]

theorem StopAndWrite_nil (order : List Int) (writeOk : Bool) (p : Process)
    (h : (StopAndWrite order writeOk p).2 = StopReturn.nil) :
    (∃ a, Stop order p.globals = StopOutcome.written a) ∧ p.fileOpen = true := by
  unfold StopAndWrite at h
  cases hstop : Stop order p.globals with
  | panic a =>
    rw [hstop] at h
    exact absurd h (by simp)
  | marshalError a =>
    rw [hstop] at h
    exact absurd h (by simp)
  | written a =>
    rw [hstop] at h
    refine ⟨⟨a, rfl⟩, ?_⟩
    by_cases hopen : p.fileOpen = true
    · exact hopen
    · simp [hopen] at h

theorem StopAndWrite_panic (order : List Int) (writeOk : Bool) (p : Process) (a : Globals)
    (h : Stop order p.globals = StopOutcome.panic a) :
    (StopAndWrite order writeOk p).2 = StopReturn.panic := by
  unfold StopAndWrite
  rw [h]

/-- C15 (as stated, refuted): after `Start` and one full bucket, a first `Stop`
stores a summary with rate `+Inf` and returns the marshal error before the `defer`
is reached, so the file stays open; a second bucket is then ingested without a
`Start`, and the second `Stop` returns `nil`, in either iteration order, having
written a result recomputed from the aggregated state, with `TotalRequest` 15. -/
theorem Stop_second_call_succeeds :
    AddMetricSamples [bucketBatch 1000 10] (Start zeroGlobals) =
        Outcome.done firstBucketRun.globals ∧
      (StopAndWrite [1000] true firstBucketRun).2 = StopReturn.error ∧
      firstBucketStopped.fileOpen = true ∧
      AddMetricSamples [bucketBatch 1001 5] firstBucketStopped.globals =
        Outcome.done resumedRun.globals ∧
      mapKeys resumedRun.globals.requestRate = [1000, 1001] ∧
      (StopAndWrite [1000, 1001] true resumedRun).2 = StopReturn.nil ∧
      (StopAndWrite [1001, 1000] true resumedRun).2 = StopReturn.nil ∧
      ((Stop [1000, 1001] resumedRun.globals).summary?.map fun sm => sm.TotalRequest) =
        some 15 := by
  decide!

/-- C15 (amended): a second call of `Stop` made directly after the first, with
neither `Start` nor `AggregateSamples` in between, never returns `nil`, whatever
the iteration orders and the operating system do, and it panics when the first
call panicked: a first call that panicked or returned the marshal error is
followed by the same failure, and a first call that reached `file.WriteString` has
closed the file, so the second call fails at the write. -/
theorem Stop_twice_fails (order order1 : List Int) (writeOk writeOk1 : Bool) (p : Process)
    (horder : order.Perm (mapKeys p.globals.requestRate))
    (horder1 : order1.Perm (mapKeys (StopAndWrite order writeOk p).1.globals.requestRate)) :
    (StopAndWrite order1 writeOk1 (StopAndWrite order writeOk p).1).2 ≠ StopReturn.nil ∧
      ((StopAndWrite order writeOk p).2 = StopReturn.panic →
        (StopAndWrite order1 writeOk1 (StopAndWrite order writeOk p).1).2 =
          StopReturn.panic) := by
  obtain ⟨hE, hrr⟩ := Stop_state order p.globals
  have hglobals := StopAndWrite_globals order writeOk p
  have hO : order1.Perm order := by
    rw [hglobals, hrr] at horder1
    exact horder1.trans horder.symm
  have hsum : (Stop order1 (StopAndWrite order writeOk p).1.globals).summary? =
      (Stop order p.globals).summary? := by
    rw [hglobals]
    exact Stop_summary_congr order order1 p.globals _ hE hO
  constructor
  · intro hnil
    obtain ⟨⟨b, hsecond⟩, hopen⟩ := StopAndWrite_nil order1 writeOk1 _ hnil
    obtain ⟨hsm, hfin⟩ := Stop_written order1 _ b hsecond
    rw [hsm] at hsum
    cases hfirst : Stop order p.globals with
    | panic a =>
      rw [hfirst] at hsum
      simp [StopOutcome.summary?] at hsum
    | marshalError a =>
      obtain ⟨-, hj⟩ := Stop_marshalError order p.globals a hfirst
      rw [hfirst] at hsum
      simp only [StopOutcome.summary?, Option.some.injEq] at hsum
      rw [jsonUnsupported_congr _ _ hsum, hj] at hfin
      exact absurd hfin (by simp)
    | written a =>
      rw [StopAndWrite_closes order writeOk p a hfirst] at hopen
      exact absurd hopen (by simp)
  · intro hpanic
    have hfirst : (Stop order p.globals).summary? = none := by
      unfold StopAndWrite at hpanic
      cases hstop : Stop order p.globals with
      | panic a => rfl
      | marshalError a =>
        rw [hstop] at hpanic
        exact absurd hpanic (by simp)
      | written a =>
        rw [hstop] at hpanic
        by_cases hw : (p.fileOpen && writeOk) = true <;> simp [hw] at hpanic
    rw [hfirst] at hsum
    cases hsecond : Stop order1 (StopAndWrite order writeOk p).1.globals with
    | panic a1 => exact StopAndWrite_panic order1 writeOk1 _ a1 hsecond
    | marshalError a1 =>
      rw [hsecond] at hsum
      simp [StopOutcome.summary?] at hsum
    | written a1 =>
      rw [hsecond] at hsum
      simp [StopOutcome.summary?] at hsum

theorem Stop_twice_fails_witness :
    (StopAndWrite [1001, 1000] true
        (StopAndWrite [1000, 1001] true { globals := twoBucketRun, fileOpen := true }).1).2 ≠
        StopReturn.nil ∧
      ((StopAndWrite [1000, 1001] true { globals := twoBucketRun, fileOpen := true }).2 =
          StopReturn.panic →
        (StopAndWrite [1001, 1000] true
          (StopAndWrite [1000, 1001] true { globals := twoBucketRun, fileOpen := true }).1).2 =
          StopReturn.panic) :=
  Stop_twice_fails [1000, 1001] [1001, 1000] true true
    { globals := twoBucketRun, fileOpen := true } (by decide) (by decide!)

/-! ## The state after a sequence of batches -/

theorem batchesAt_cons (k : Int) (first : Sample) (more : List Sample)
    (rest : List (List Sample)) :
    batchesAt k ((first :: more) :: rest) =
      if first.Time = k then (first :: more) :: batchesAt k rest else batchesAt k rest := by
  unfold batchesAt
  by_cases h : first.Time = k <;> simp [List.filter_cons, h]

/-- Closed form of the aggregation variables after a sequence of batches. -/
theorem AddMetricSamples_closed (batches : List (List Sample)) (g g1 : Globals)
    (hrun : AddMetricSamples batches g = Outcome.done g1) (k : Int) :
    mapGet 0 g1.requestRate k =
        mapGet 0 g.requestRate k +
          ((batchesAt k batches).map fun b => (valuesOf "http_reqs" b).sum).sum ∧
      mapGet 0 g1.errorRate k =
        mapGet 0 g.errorRate k +
          ((batchesAt k batches).map fun b => (valuesOf "http_req_failed" b).sum).sum ∧
      mapGet [] g1.requestDuration k =
        mapGet [] g.requestDuration k ++
          (batchesAt k batches).flatMap (valuesOf "http_req_duration") ∧
      mapHas g1.requestRate k =
        (mapHas g.requestRate k ||
          (batchesAt k batches).any fun b => b.any fun s => decide (s.Name = "http_reqs")) ∧
      mapHas g1.errorRate k =
        (mapHas g.errorRate k ||
          (batchesAt k batches).any fun b =>
            b.any fun s => decide (s.Name = "http_req_failed")) ∧
      g1.flattenRequestDuration =
        g.flattenRequestDuration ++ batches.flatMap (valuesOf "http_req_duration") ∧
      g1.loadTestResult = g.loadTestResult := by
  induction batches generalizing g with
  | nil =>
    have hg : g = g1 := Outcome.done.inj hrun
    subst hg
    simp [batchesAt]
  | cons b rest ih =>
    match b with
    | [] => simp [AddMetricSamples, AggregateSamples] at hrun
    | first :: more =>
      rw [AddMetricSamples_cons_done] at hrun
      obtain ⟨i1, i2, i3, i4, i5, i6, i7⟩ := ih _ hrun
      obtain ⟨f1, f2, f3, f4, f5⟩ := foldl_aggregateSample first.Time (first :: more) g
      obtain ⟨p1, p2, p3⟩ := foldl_aggregateSample_has first.Time (first :: more) g
      rw [i1, i2, i3, i4, i5, i6, i7, f4, f5, batchesAt_cons]
      by_cases hk : first.Time = k
      · subst hk
        rw [if_pos rfl, f1, f2, f3, p1, p2]
        simp only [List.map_cons, List.sum_cons, List.flatMap_cons, List.any_cons,
          List.append_assoc, add_assoc, Bool.or_assoc, and_self]
      · have hk' : k ≠ first.Time := fun h => hk h.symm
        obtain ⟨o1, o2, o3, o4, o5, -⟩ :=
          foldl_aggregateSample_other first.Time (first :: more) g k hk'
        rw [if_neg hk, o1, o2, o3, o4, o5]
        simp only [List.flatMap_cons, List.append_assoc, and_self]

theorem Start_eq (g0 : Globals) : Start g0 = zeroGlobals :=
  rfl

theorem mapGet_eq_ite {V : Type} (zero zero1 : V) (m : GoMap V) (k : Int) :
    mapGet zero m k = if mapHas m k = true then mapGet zero1 m k else zero := by
  induction m with
  | nil => simp [mapGet, mapHas]
  | cons e rest ih =>
    obtain ⟨k0, w⟩ := e
    by_cases h0 : k0 = k
    · subst h0
      simp [mapGet, mapHas]
    · have hne : ¬ k = k0 := fun h => h0 h.symm
      have hhas : mapHas ((k0, w) :: rest) k = mapHas rest k := by
        simp [mapHas, hne]
      rw [hhas]
      simp only [mapGet, if_neg h0]
      exact ih

theorem SameMap.of_zero {V : Type} (zero : V) (m m1 : GoMap V)
    (hhas : ∀ k, mapHas m1 k = mapHas m k)
    (hget : ∀ k, mapGet zero m1 k = mapGet zero m k) : SameMap m m1 := by
  intro k
  refine ⟨hhas k, fun z => ?_⟩
  rw [mapGet_eq_ite z zero m1 k, mapGet_eq_ite z zero m k, hhas k, hget k]

theorem SameMap.mapKeys_perm {V : Type} {m m1 : GoMap V} (h : SameMap m m1) :
    (mapKeys m1).Perm (mapKeys m) := by
  refine (List.perm_ext_iff_of_nodup (nodup_mapKeys m1) (nodup_mapKeys m)).mpr fun k => ?_
  rw [mem_mapKeys, mem_mapKeys, (h k).1]

/-- The points left by a call of `Stop` that stored a summary. -/
theorem Stop_points (order : List Int) (g : Globals) (sm : Summary)
    (h : (Stop order g).summary? = some sm) :
    (∀ k, mapHas (Stop order g).state.loadTestResult.Points k =
        (decide (k ∈ order) || mapHas g.loadTestResult.Points k)) ∧
      (∀ zero k, mapGet zero (Stop order g).state.loadTestResult.Points k =
        if k ∈ order then pointOf g k else mapGet zero g.loadTestResult.Points k) ∧
      (Stop order g).state.loadTestResult.Summary = sm := by
  obtain ⟨d, hd, hall, -⟩ := Stop_summary order g sm h
  obtain ⟨g1, -, hhas, hget, hstop⟩ := Stop_of_buckets_points order g hall
  rw [hstop, hd] at h ⊢
  dsimp only at h ⊢
  split
  · next hj =>
    rw [if_pos hj] at h
    exact ⟨hhas, hget, by simpa [StopOutcome.summary?] using h⟩
  · next hj =>
    rw [if_neg hj] at h
    exact ⟨hhas, hget, by simpa [StopOutcome.summary?] using h⟩

theorem pointOf_congr (g g1 : Globals) (hE : RunEquiv g g1) (k : Int) :
    pointOf g1 k = pointOf g k := by
  unfold pointOf
  rw [hE.1, hE.2.1, congrArg Prod.snd (Percentile_congr _ _ _ (hE.2.2.1 k))]

theorem Stop_panic_iff (order : List Int) (g : Globals) :
    (∃ a, Stop order g = StopOutcome.panic a) ↔ (Stop order g).summary? = none := by
  cases Stop order g <;> simp [StopOutcome.summary?]

/-- Two states with the same aggregated data and the same points, visited in
orders that are permutations of each other, make `Stop` end alike. -/
theorem Stop_congr (order order1 : List Int) (g g1 : Globals) (hE : RunEquiv g g1)
    (hO : order1.Perm order)
    (hP : SameMap g.loadTestResult.Points g1.loadTestResult.Points) :
    SameStop (Stop order g) (Stop order1 g1) := by
  have hsum := Stop_summary_congr order order1 g g1 hE hO
  cases hs : (Stop order g).summary? with
  | none =>
    rw [hs] at hsum
    exact Or.inl ⟨(Stop_panic_iff order g).mpr hs, (Stop_panic_iff order1 g1).mpr hsum⟩
  | some sm =>
    rw [hs] at hsum
    obtain ⟨hhas, hget, hsm⟩ := Stop_points order g sm hs
    obtain ⟨hhas1, hget1, hsm1⟩ := Stop_points order1 g1 sm hsum
    have hpoints : SameMap (Stop order g).state.loadTestResult.Points
        (Stop order1 g1).state.loadTestResult.Points := by
      intro k
      have hmem : k ∈ order1 ↔ k ∈ order := hO.mem_iff
      refine ⟨?_, fun z => ?_⟩
      · rw [hhas, hhas1, (hP k).1]
        simp only [hmem]
      · rw [hget, hget1, (hP k).2 z, pointOf_congr g g1 hE]
        simp only [hmem]
    rcases Stop_summary_cases order g sm hs with ⟨a, ha, hsa, hj⟩ | ⟨a, ha, hsa⟩
    · rcases Stop_summary_cases order1 g1 sm hsum with ⟨b, hb, hsb, -⟩ | ⟨b, hb, hsb⟩
      · rw [ha, hb] at hpoints
        exact Or.inr (Or.inl ⟨a, b, ha, hb, hpoints, by rw [hsa, hsb]⟩)
      · obtain ⟨-, hfin⟩ := Stop_written order1 g1 b hb
        rw [jsonUnsupported_congr a.loadTestResult b.loadTestResult (by rw [hsa, hsb]), hj]
          at hfin
        exact absurd hfin (by simp)
    · rcases Stop_summary_cases order1 g1 sm hsum with ⟨b, hb, hsb, hj⟩ | ⟨b, hb, hsb⟩
      · obtain ⟨-, hfin⟩ := Stop_written order g a ha
        rw [jsonUnsupported_congr b.loadTestResult a.loadTestResult (by rw [hsa, hsb]), hj]
          at hfin
        exact absurd hfin (by simp)
      · rw [ha, hb] at hpoints
        exact Or.inr (Or.inr ⟨a, b, ha, hb, hpoints, by rw [hsa, hsb]⟩)

/-! ## The claims about the reported buckets and about ingestion order -/

/-- C14: after `Start`, a sequence of batches and a `Stop` that writes its result,
the keys of `Points` are exactly the keys of `requestRate`, which are exactly the
first-sample timestamps of the batches that contain an `http_reqs` sample;
`TotalError` is the sum over these keys only, and the `errorRate` entry of any
other timestamp has no influence on the summary. -/
theorem Points_keys (g0 : Globals) (batches : List (List Sample)) (g g1 : Globals)
    (order : List Int)
    (hrun : AddMetricSamples batches (Start g0) = Outcome.done g)
    (horder : order.Perm (mapKeys g.requestRate))
    (hstop : Stop order g = StopOutcome.written g1) :
    (∀ k, mapHas g1.loadTestResult.Points k = mapHas g.requestRate k) ∧
      (∀ k, mapHas g.requestRate k = true ↔
        ∃ b ∈ batches, b.head?.map (fun s => s.Time) = some k ∧
          ∃ s ∈ b, s.Name = "http_reqs") ∧
      g1.loadTestResult.Summary.TotalError =
        wrapInt64 ((mapKeys g.requestRate).map fun k =>
          int64OfFloat (mapGet 0 g.errorRate k)).sum ∧
      ∀ (k : Int) (v : ℚ), mapHas g.requestRate k = false →
        (Stop order { g with errorRate := mapSet g.errorRate k v }).summary? =
          (Stop order g).summary? := by
  have hsm : (Stop order g).summary? = some g1.loadTestResult.Summary := by
    rw [hstop]; rfl
  obtain ⟨hhas, -, -⟩ := Stop_points order g _ hsm
  rw [hstop] at hhas
  simp only [StopOutcome.state] at hhas
  have hclosed := fun k => AddMetricSamples_closed batches (Start g0) g hrun k
  have hpts0 : g.loadTestResult.Points = [] := by
    rw [(hclosed 0).2.2.2.2.2.2]
    rfl
  refine ⟨fun k => ?_, fun k => ?_, ?_, fun k v hk => ?_⟩
  · rw [hhas, hpts0]
    have hmem : k ∈ order ↔ mapHas g.requestRate k = true := by
      rw [horder.mem_iff, mem_mapKeys]
    have h0 : mapHas ([] : GoMap Metric) k = false := rfl
    rw [h0]
    by_cases hh : mapHas g.requestRate k = true
    · simp [hmem.mpr hh, hh]
    · have hnot : k ∉ order := fun h => hh (hmem.mp h)
      have hf : mapHas g.requestRate k = false := by simpa using hh
      rw [hf]
      simp [hnot]
  · rw [(hclosed k).2.2.2.1]
    simp only [Start, mapHas, List.map_nil, List.not_mem_nil, decide_False, Bool.false_or,
      List.any_eq_true, decide_eq_true_eq, batchesAt, List.mem_filter]
    constructor
    · rintro ⟨b, ⟨hb, hkey⟩, s, hs, hname⟩
      exact ⟨b, hb, hkey, s, hs, hname⟩
    · rintro ⟨b, hb, hkey, s, hs, hname⟩
      exact ⟨b, ⟨hb, hkey⟩, s, hs, hname⟩
  · obtain ⟨d, -, -, hval⟩ := Stop_summary order g _ hsm
    rw [hval, summaryOf_totalError, (horder.map _).sum_eq]
  · have hnot : k ∉ order := by
      rw [horder.mem_iff, mem_mapKeys, hk]
      simp
    rw [Stop_summary_eq, Stop_summary_eq]
    have hfun : summaryOf { g with errorRate := mapSet g.errorRate k v } order =
        summaryOf g order := by
      funext d
      rw [summaryOf_eq, summaryOf_eq]
      have he : (order.map fun k' =>
          int64OfFloat (mapGet 0 (mapSet g.errorRate k v) k')) =
          order.map fun k' => int64OfFloat (mapGet 0 g.errorRate k') := by
        apply List.map_congr_left
        intro k' hk'
        have : ¬ k = k' := fun h => hnot (h ▸ hk')
        rw [mapGet_mapSet, if_neg this]
      simp only [he]
    simp only [hfun]

theorem Points_keys_witness :
    AddMetricSamples threeBatches (Start zeroGlobals) = Outcome.done threeBatchState ∧
      Stop [1000, 1001] threeBatchState = StopOutcome.written threeBatchStopped ∧
      mapHas threeBatchStopped.loadTestResult.Points 1002 = false ∧
      mapHas threeBatchStopped.loadTestResult.Points 1000 = true ∧
      mapGet 0 threeBatchState.errorRate 1002 = 3 ∧
      threeBatchStopped.loadTestResult.Summary.TotalError = 0 := by
  have h := Points_keys zeroGlobals threeBatches threeBatchState threeBatchStopped
    [1000, 1001] (by decide!) (by decide!) (by decide!)
  refine ⟨by decide!, by decide!, ?_, ?_, by decide!, ?_⟩
  · rw [h.1 1002]; decide!
  · rw [h.1 1000]; decide!
  · rw [h.2.2.1]; decide!

/-- C20: when the same non-empty batches are ingested after `Start` in two orders,
both ingestions return normally; the two states have the same `requestRate` and
`errorRate` maps (same keys, same sums) and per-key duration slices that are
permutations of each other; and `Stop` ends alike on the two, whatever the
iteration orders: it panics on both, or returns the marshal error on both, or
writes on both, each time with the same points and the same summary. -/
theorem ingestion_order_independent (g0 : Globals) (batches batches1 : List (List Sample))
    (hperm : batches1.Perm batches) (hne : ∀ b ∈ batches, b ≠ []) :
    ∃ g g1, AddMetricSamples batches (Start g0) = Outcome.done g ∧
      AddMetricSamples batches1 (Start g0) = Outcome.done g1 ∧
      SameMap g.requestRate g1.requestRate ∧ SameMap g.errorRate g1.errorRate ∧
      (∀ k, (mapGet [] g1.requestDuration k).Perm (mapGet [] g.requestDuration k)) ∧
      ∀ order order1 : List Int, order.Perm (mapKeys g.requestRate) →
        order1.Perm (mapKeys g1.requestRate) → SameStop (Stop order g) (Stop order1 g1) := by
  obtain ⟨g, hrun⟩ := AddMetricSamples_done batches (Start g0) hne
  obtain ⟨g1, hrun1⟩ := AddMetricSamples_done batches1 (Start g0)
    fun b hb => hne b (hperm.mem_iff.mp hb)
  have hc := fun k => AddMetricSamples_closed batches (Start g0) g hrun k
  have hc1 := fun k => AddMetricSamples_closed batches1 (Start g0) g1 hrun1 k
  have hat : ∀ k, (batchesAt k batches1).Perm (batchesAt k batches) :=
    fun k => hperm.filter _
  have hany : ∀ (k : Int) (f : List Sample → Bool),
      (batchesAt k batches1).any f = (batchesAt k batches).any f := by
    intro k f
    rw [Bool.eq_iff_iff, List.any_eq_true, List.any_eq_true]
    constructor
    · rintro ⟨b, hb, hf⟩
      exact ⟨b, (hat k).mem_iff.mp hb, hf⟩
    · rintro ⟨b, hb, hf⟩
      exact ⟨b, (hat k).mem_iff.mpr hb, hf⟩
  have hrr : SameMap g.requestRate g1.requestRate := by
    apply SameMap.of_zero 0
    · intro k
      rw [(hc1 k).2.2.2.1, (hc k).2.2.2.1, hany]
    · intro k
      rw [(hc1 k).1, (hc k).1, ((hat k).map _).sum_eq]
  have her : SameMap g.errorRate g1.errorRate := by
    apply SameMap.of_zero 0
    · intro k
      rw [(hc1 k).2.2.2.2.1, (hc k).2.2.2.2.1, hany]
    · intro k
      rw [(hc1 k).2.1, (hc k).2.1, ((hat k).map _).sum_eq]
  have hrd : ∀ k, (mapGet [] g1.requestDuration k).Perm (mapGet [] g.requestDuration k) := by
    intro k
    rw [(hc1 k).2.2.1, (hc k).2.2.1]
    exact List.Perm.append_left _ ((hat k).flatMap_right _)
  have hflat : g1.flattenRequestDuration.Perm g.flattenRequestDuration := by
    rw [(hc1 0).2.2.2.2.2.1, (hc 0).2.2.2.2.2.1]
    exact List.Perm.append_left _ (hperm.flatMap_right _)
  have hE : RunEquiv g g1 := ⟨fun k => ((hrr k).2 0), fun k => ((her k).2 0), hrd, hflat⟩
  have hP : SameMap g.loadTestResult.Points g1.loadTestResult.Points := by
    rw [(hc 0).2.2.2.2.2.2, (hc1 0).2.2.2.2.2.2]
    intro k
    exact ⟨rfl, fun _ => rfl⟩
  refine ⟨g, g1, hrun, hrun1, hrr, her, hrd, fun order order1 ho ho1 => ?_⟩
  exact Stop_congr order order1 g g1 hE ((ho1.trans hrr.mapKeys_perm).trans ho.symm) hP

theorem ingestion_order_independent_witness :
    ∃ g g1, AddMetricSamples threeBatches (Start zeroGlobals) = Outcome.done g ∧
      AddMetricSamples threeBatches.reverse (Start zeroGlobals) = Outcome.done g1 ∧
      SameMap g.requestRate g1.requestRate ∧ SameMap g.errorRate g1.errorRate ∧
      (∀ k, (mapGet [] g1.requestDuration k).Perm (mapGet [] g.requestDuration k)) ∧
      ∀ order order1 : List Int, order.Perm (mapKeys g.requestRate) →
        order1.Perm (mapKeys g1.requestRate) → SameStop (Stop order g) (Stop order1 g1) :=
  ingestion_order_independent zeroGlobals threeBatches threeBatches.reverse
    (List.reverse_perm _) (by decide)

end Log
